import Mathlib

set_option maxHeartbeats 1000000

/-!
Shallow embedding of the deterministic signal pipeline of the `ts_agent`
repository: trade-to-bar aggregation (`src/training/src/data/barBuilder.ts`),
the indicator/feature-window extractor (same file, second module), the risk
mapper (`src/training/src/risk/riskMap.ts`) and the pure training/inference
split of the trading cycle (`runTradingCycle`).

Numbers: JS `number` values are modelled exactly — as rationals (`ℚ`) in the
aggregator, where every operation is field arithmetic plus `Math.floor`
rounding, and as reals (`ℝ`) in the feature pipeline, which uses `Math.sqrt`
and `Math.log`.  Timestamps are naturals (integer milliseconds).  `NaN` and
`±Infinity` are not representable in this model; the one place where the code
relies on IEEE infinity propagation (`1/(1+1/rs)` at `rs = 0` inside
`computeRSI`) is embedded with an explicit branch and documented there.
Pure-arithmetic indicator functions are stated over an arbitrary linear
ordered field so that concrete evaluations can run over `ℚ` by `decide`.
-/

/-- Trade side, from the `KucoinTrade` interface (`side: "buy" | "sell"`). -/
inductive Side
  | buy
  | sell
deriving DecidableEq, Repr

/-- `KucoinTrade` record from `src/training/src/types` (src/unnamed/part_002):
`{sequence, price, size, side, time}`; prices and sizes are modelled as
rationals, times as natural-number milliseconds. -/
structure KucoinTrade where
  sequence : String
  price : ℚ
  size : ℚ
  side : Side
  time : ℕ
deriving DecidableEq, Repr

/-- `TradeBar` record from `src/training/src/types` (src/unnamed/part_002),
parameterised over the numeric type: `ℚ` for bars built by the aggregator,
`ℝ` for bars fed into the feature pipeline.  The `open` field is called
`open_` because `open` is a Lean keyword. -/
structure TradeBar (α : Type) where
  startTime : ℕ
  endTime : ℕ
  open_ : α
  high : α
  low : α
  close : α
  volume : α
  buyVolume : α
  sellVolume : α
  tradeCount : ℕ
  notional : α
  vwap : α
deriving DecidableEq

/-- `MutableBarAccumulator` from `src/training/src/data/barBuilder.ts`. -/
structure MutableBarAccumulator where
  startTime : ℕ
  endTime : ℕ
  open_ : ℚ
  high : ℚ
  low : ℚ
  close : ℚ
  volume : ℚ
  buyVolume : ℚ
  sellVolume : ℚ
  tradeCount : ℕ
  notional : ℚ
deriving DecidableEq

/-- `roundTo` from barBuilder.ts: `Math.round(value * 10^decimals) / 10^decimals`.
JS `Math.round x = ⌊x + 1/2⌋` (half-up, toward `+∞`). -/
def roundTo (value : ℚ) (decimals : ℕ) : ℚ :=
  let factor : ℚ := 10 ^ decimals
  (⌊value * factor + 1 / 2⌋ : ℚ) / factor

/-- `floorToInterval` from barBuilder.ts: `Math.floor(t / interval) * interval`;
on natural milliseconds this is exactly truncating division. -/
def floorToInterval (timestampMs intervalMs : ℕ) : ℕ :=
  timestampMs / intervalMs * intervalMs

/-- `createAccumulator` from barBuilder.ts. -/
def createAccumulator (bucketStart bucketEnd : ℕ) (trade : KucoinTrade) :
    MutableBarAccumulator where
  startTime := bucketStart
  endTime := bucketEnd
  open_ := trade.price
  high := trade.price
  low := trade.price
  close := trade.price
  volume := trade.size
  buyVolume := if trade.side = Side.buy then trade.size else 0
  sellVolume := if trade.side = Side.sell then trade.size else 0
  tradeCount := 1
  notional := trade.price * trade.size

/-- The per-trade accumulator update block in the main loop of
`buildBarsFromTrades` (barBuilder.ts lines 102-112). -/
def mergeTrade (accumulator : MutableBarAccumulator) (trade : KucoinTrade) :
    MutableBarAccumulator :=
  { accumulator with
    high := max accumulator.high trade.price
    low := min accumulator.low trade.price
    close := trade.price
    volume := accumulator.volume + trade.size
    notional := accumulator.notional + trade.price * trade.size
    tradeCount := accumulator.tradeCount + 1
    buyVolume :=
      if trade.side = Side.buy then accumulator.buyVolume + trade.size
      else accumulator.buyVolume
    sellVolume :=
      if trade.side = Side.buy then accumulator.sellVolume
      else accumulator.sellVolume + trade.size }

/-- `finalizeAccumulator` from barBuilder.ts: `volume || 1e-12` guards the
vwap denominator (JS `||` replaces `0` by `1e-12`); volume fields, notional
and vwap are rounded to 8 decimals. -/
def finalizeAccumulator (accumulator : MutableBarAccumulator) : TradeBar ℚ :=
  let volume : ℚ :=
    if accumulator.volume = 0 then 1 / 10 ^ 12 else accumulator.volume
  { startTime := accumulator.startTime
    endTime := accumulator.endTime
    open_ := accumulator.open_
    high := accumulator.high
    low := accumulator.low
    close := accumulator.close
    volume := roundTo accumulator.volume 8
    buyVolume := roundTo accumulator.buyVolume 8
    sellVolume := roundTo accumulator.sellVolume 8
    tradeCount := accumulator.tradeCount
    notional := roundTo accumulator.notional 8
    vwap := roundTo (accumulator.notional / volume) 8 }

/-- The `flush` closure of `buildBarsFromTrades`: an open accumulator is
finalized and appended, a `null` accumulator contributes nothing. -/
def flushList (accumulator : Option MutableBarAccumulator) : List (TradeBar ℚ) :=
  match accumulator with
  | none => []
  | some a => [finalizeAccumulator a]

/-- The inner `while (trade.time >= bucketEnd)` loop of `buildBarsFromTrades`:
flush the open accumulator (only the first iteration can flush, afterwards it
is `null`) and advance the bucket boundaries one interval at a time.  The
source loop diverges for `intervalMs = 0`; the guard `0 < intervalMs` makes
the embedding total, and every theorem about it assumes a positive interval. -/
def advanceBuckets (intervalMs tradeTime : ℕ) (bucketStart bucketEnd : ℕ)
    (accumulator : Option MutableBarAccumulator) (bars : List (TradeBar ℚ)) :
    ℕ × ℕ × Option MutableBarAccumulator × List (TradeBar ℚ) :=
  if h : 0 < intervalMs ∧ bucketEnd ≤ tradeTime then
    advanceBuckets intervalMs tradeTime bucketEnd (bucketEnd + intervalMs) none
      (bars ++ flushList accumulator)
  else
    (bucketStart, bucketEnd, accumulator, bars)
termination_by tradeTime + 1 - bucketEnd
decreasing_by omega

/-- The main `for (const trade of sorted)` loop of `buildBarsFromTrades`,
with the trailing `flush()` after the loop. -/
def processTrades (intervalMs : ℕ) :
    List KucoinTrade → ℕ → ℕ → Option MutableBarAccumulator →
    List (TradeBar ℚ) → List (TradeBar ℚ)
  | [], _, _, accumulator, bars => bars ++ flushList accumulator
  | trade :: rest, bucketStart, bucketEnd, accumulator, bars =>
    let st := advanceBuckets intervalMs trade.time bucketStart bucketEnd
      accumulator bars
    match st.2.2.1 with
    | none =>
      processTrades intervalMs rest st.1 st.2.1
        (some (createAccumulator st.1 st.2.1 trade)) st.2.2.2
    | some a =>
      processTrades intervalMs rest st.1 st.2.1 (some (mergeTrade a trade))
        st.2.2.2

/-- Stable insertion of a trade into a time-sorted list: the new element goes
before the first strictly later element, hence after all earlier-inserted
elements of equal time once combined with `List.foldr` below. -/
def insertByTime (trade : KucoinTrade) : List KucoinTrade → List KucoinTrade
  | [] => [trade]
  | u :: rest =>
    if trade.time ≤ u.time then trade :: u :: rest
    else u :: insertByTime trade rest

/-- The JS `[...trades].sort((a, b) => a.time - b.time)` call: an ECMAScript
sort with this comparator is exactly the stable ascending sort by `time`,
embedded as a stable insertion sort (sortedness and stability are proved
below as `sortByTime_sorted` and `sortByTime_filter_time`). -/
def sortByTime (trades : List KucoinTrade) : List KucoinTrade :=
  trades.foldr insertByTime []

/-- `buildBarsFromTrades` from barBuilder.ts.  `maxBars` is the optional JS
parameter; the source guard `if (maxBars && bars.length > maxBars)` treats an
explicit `0` like an absent argument (JS falsiness), which the embedding
mirrors with the `0 < m` conjunct.  `bars.slice(-maxBars)` keeps the last
`maxBars` elements. -/
def buildBarsFromTrades (trades : List KucoinTrade) (intervalMs : ℕ)
    (maxBars : Option ℕ) : List (TradeBar ℚ) :=
  match sortByTime trades with
  | [] => []
  | firstTrade :: _ =>
    let bucketStart := floorToInterval firstTrade.time intervalMs
    let bars := processTrades intervalMs (sortByTime trades) bucketStart
      (bucketStart + intervalMs) none []
    match maxBars with
    | none => bars
    | some m =>
      if 0 < m ∧ m < bars.length then bars.drop (bars.length - m) else bars

/-- Bucket of a trade: the start time of the interval containing it. -/
def bucketOf (intervalMs : ℕ) (trade : KucoinTrade) : ℕ :=
  floorToInterval trade.time intervalMs

/-- Proof-level characterisation of the aggregator loop: starting from an open
accumulator, consume a time-sorted tail, merging trades that stay inside the
current bucket and cutting a bar whenever a trade falls at or past the bucket
end.  `processTrades` is proved equal to this on sorted input below. -/
def runsFrom (intervalMs : ℕ) (a : MutableBarAccumulator) :
    List KucoinTrade → List (TradeBar ℚ)
  | [] => [finalizeAccumulator a]
  | trade :: rest =>
    if trade.time < a.startTime + intervalMs then
      runsFrom intervalMs (mergeTrade a trade) rest
    else
      finalizeAccumulator a ::
        runsFrom intervalMs
          (createAccumulator (bucketOf intervalMs trade)
            (bucketOf intervalMs trade + intervalMs) trade) rest

/-- Start times of the bucket runs of a list, given the current run value:
equal adjacent values are merged, each change opens a new run. -/
def runStarts (b : ℕ) : List ℕ → List ℕ
  | [] => [b]
  | x :: xs => if x = b then runStarts b xs else b :: runStarts x xs

/-- `RiskMapConfig` from `src/training/src/risk/riskMap.ts`: all four fields
optional. -/
structure RiskMapConfig where
  neutralZone : Option ℝ := none
  volatilityTarget : Option ℝ := none
  volatilityFloor : Option ℝ := none
  maxExposure : Option ℝ := none

/-- Fully resolved risk configuration (`Required<RiskMapConfig>`). -/
structure ResolvedRiskConfig where
  neutralZone : ℝ
  volatilityTarget : ℝ
  volatilityFloor : ℝ
  maxExposure : ℝ

/-- `defaultConfig` from riskMap.ts: `{0.05, 0.015, 1e-4, 0.5}`. -/
noncomputable def defaultConfig : ResolvedRiskConfig where
  neutralZone := 5 / 100
  volatilityTarget := 15 / 1000
  volatilityFloor := 1 / 10 ^ 4
  maxExposure := 1 / 2

/-- The JS spread merge `{ ...defaultConfig, ...config }`: every field present
in `config` wins, missing fields fall back to the defaults. -/
noncomputable def mergeConfig (config : RiskMapConfig) : ResolvedRiskConfig where
  neutralZone := config.neutralZone.getD defaultConfig.neutralZone
  volatilityTarget := config.volatilityTarget.getD defaultConfig.volatilityTarget
  volatilityFloor := config.volatilityFloor.getD defaultConfig.volatilityFloor
  maxExposure := config.maxExposure.getD defaultConfig.maxExposure

/-- `computeForecastVolatility` from riskMap.ts.  Note that both early
returns yield `defaultConfig.volatilityTarget` — the module-level default —
since the function takes no configuration argument.  `Math.max(0, len -
lookback)` is natural subtraction; the two sample-moment divisors are
`slice.length` and `Math.max(slice.length - 1, 1)`. -/
noncomputable def computeForecastVolatility (returns : List ℝ) (lookback : ℕ) : ℝ :=
  if returns.length = 0 then defaultConfig.volatilityTarget
  else
    let start := returns.length - lookback
    let slice := returns.drop start
    if slice.length = 0 then defaultConfig.volatilityTarget
    else
      let mean := slice.sum / (slice.length : ℝ)
      let variance :=
        (slice.map (fun value => (value - mean) ^ 2)).sum /
          max ((slice.length : ℝ) - 1) 1
      Real.sqrt (max variance 0)

/-- `applyRiskMap` from riskMap.ts. -/
noncomputable def applyRiskMap (probability forecastVolatility : ℝ)
    (config : RiskMapConfig) : ℝ :=
  let merged := mergeConfig config
  let clippedProb := min (max probability 0) 1
  let rawSignal := clippedProb * 2 - 1
  if |rawSignal| < merged.neutralZone then 0
  else
    let vol := max forecastVolatility merged.volatilityFloor
    let scale := min (merged.volatilityTarget / vol) 1
    let scaledSignal := rawSignal * scale
    max (-merged.maxExposure) (min merged.maxExposure scaledSignal)

/-- Modelled from the spec's RiskMapper algorithm sentence, for the refinement
half of claim C5: clip, map to a signed signal, deadband, volatility-scaled
damping, clamp. -/
noncomputable def riskMapSpec (probability forecastVolatility neutralZone volatilityTarget
    volatilityFloor maxExposure : ℝ) : ℝ :=
  let signal := (min (max probability 0) 1) * 2 - 1
  if |signal| < neutralZone then 0
  else
    let vol := max forecastVolatility volatilityFloor
    let scale := min (volatilityTarget / vol) 1
    max (-maxExposure) (min maxExposure (signal * scale))

/-- `FEATURE_COUNT` from the feature extractor. -/
def FEATURE_COUNT : ℕ := 22

/-- `FeatureExtractionOptions` from the feature extractor, with the source
defaults `normalizePerFeature = true`, `volatilityLookback = 16`. -/
structure FeatureExtractionOptions where
  windowSize : ℕ
  normalizePerFeature : Bool := true
  volatilityLookback : ℕ := 16

/-- `FeatureWindow` record from `src/training/src/types`. -/
structure FeatureWindow where
  window : List (List ℝ)
  label : ℕ
  lastClose : ℝ
  nextClose : ℝ
  bars : List (TradeBar ℝ)

/-- Placeholder `FeatureWindow` used as the `getD` default in statements. -/
def emptyFeatureWindow : FeatureWindow :=
  { window := [], label := 0, lastClose := 0, nextClose := 0, bars := [] }

section IndicatorDefs

variable {α : Type} [LinearOrderedField α]

/-- `getValue` from the feature extractor: a bounds-checked array read with a
fallback.  The JS version also replaces non-finite entries by the fallback;
`NaN`/`±∞` do not exist in this model, so the check is the identity. -/
def getValue (arr : List α) (index : ℕ) (fallback : α := 0) : α :=
  arr.getD index fallback

/-- `safeDivide` from the feature extractor.  The JS non-finite operand check
is the identity in this model; the magnitude guard is exact. -/
def safeDivide (numerator denominator : α) (fallback : α := 0) : α :=
  if |denominator| < 1 / 10 ^ 12 then fallback
  else numerator / denominator

/-- `computeSMA` from the feature extractor.  The source keeps a rolling sum
(add `values[i]`, subtract `values[i - period]` once `i ≥ period`) and writes
`sum / period` from `i = period - 1` on, zero before; the rolling sum at such
an `i` is exactly the sum of the `period` entries ending at `i`, which is the
closed form used here (stated for `period ≥ 1`, the only use). -/
def computeSMA (values : List α) (period : ℕ) : List α :=
  (List.range values.length).map fun i =>
    if period ≤ i + 1 then ((values.drop (i + 1 - period)).take period).sum / (period : α)
    else 0

/-- `computeEMA` from the feature extractor: seeded with the first value,
then `result[i] = alpha * values[i] + (1 - alpha) * result[i-1]` — a left
scan. -/
def computeEMA (values : List α) (period : ℕ) : List α :=
  match values with
  | [] => []
  | v :: rest =>
    let alpha : α := 2 / ((period : α) + 1)
    List.scanl (fun prev value => alpha * value + (1 - alpha) * prev) v rest

/-- The RSI output expression `1 / (1 + 1 / rs)` of computeRSI.  Under IEEE
semantics `rs = 0` gives `1 / rs = ∞` and the whole expression `0`; the
explicit branch encodes that (in Lean `1/0 = 0` would instead give `1`).
`rs` is always ≥ 0 in `computeRSI` (quotients of nonnegative averages). -/
def rsiExpr (rs : α) : α :=
  if rs = 0 then 0 else 1 / (1 + 1 / rs)

/-- The `rs` value of computeRSI: `avgLoss === 0 ? 100 : avgGain / avgLoss`. -/
def rsValue (avgGain avgLoss : α) : α :=
  if avgLoss = 0 then 100 else avgGain / avgLoss

/-- One Wilder smoothing step of computeRSI:
`avg = (avg * (period - 1) + current) / period` with
`currentGain = diff > 0 ? diff : 0` and `currentLoss = diff < 0 ? -diff : 0`. -/
def wilderStep (period : ℕ) (avg : α × α) (diff : α) : α × α :=
  ((avg.1 * ((period : α) - 1) + (if diff > 0 then diff else 0)) / (period : α),
   (avg.2 * ((period : α) - 1) + (if diff < 0 then -diff else 0)) / (period : α))

/-- One iteration of the main `computeRSI` loop (state = Wilder averages and
the result list being filled): update the averages with the delta at `i`,
then store the RSI value at index `i`. -/
def rsiFoldStep (values : List α) (period : ℕ) (st : (α × α) × List α)
    (i : ℕ) : (α × α) × List α :=
  let avg := wilderStep period st.1 (getValue values i - getValue values (i - 1))
  (avg, st.2.set i (rsiExpr (rsValue avg.1 avg.2)))

/-- `computeRSI` from the feature extractor.  The result list starts as all
`0.5`; the seed averages are simple sums over the first
`min period (len - 1)` deltas divided by `period`; index `period` is written
if in range; the remaining indices are written by a left fold of
`rsiFoldStep` over `period+1 … len-1`. -/
def computeRSI (values : List α) (period : ℕ) : List α :=
  if values.length < 2 then List.replicate values.length (1 / 2)
  else
    let diff := fun i : ℕ => getValue values i - getValue values (i - 1)
    let seedIdx := List.range' 1 (min period (values.length - 1))
    let gain := (seedIdx.map fun i => if diff i ≥ 0 then diff i else 0).sum
    let loss := (seedIdx.map fun i => if diff i ≥ 0 then 0 else -diff i).sum
    let avg0 : α × α := (gain / (period : α), loss / (period : α))
    let base := List.replicate values.length ((1 : α) / 2)
    let base :=
      if period < values.length then
        base.set period (rsiExpr (rsValue avg0.1 avg0.2))
      else base
    ((List.range' (period + 1) (values.length - (period + 1))).foldl
      (rsiFoldStep values period) (avg0, base)).2

/-- The `computeRSI` fold after `k` iterations, starting from state `init`. -/
def rsiFoldState (values : List α) (period : ℕ) (init : (α × α) × List α)
    (k : ℕ) : (α × α) × List α :=
  (List.range' (period + 1) k).foldl (rsiFoldStep values period) init

/-- Modelled from the spec: the simple-average seed gains/losses over the
first `period` price deltas, divided by `period`. -/
def specSeedAvg (values : List α) (period : ℕ) : α × α :=
  (((List.range' 1 period).map fun i =>
      max (getValue values i - getValue values (i - 1)) 0).sum / (period : α),
   ((List.range' 1 period).map fun i =>
      max (-(getValue values i - getValue values (i - 1))) 0).sum / (period : α))

/-- Modelled from the spec: Wilder smoothing
`avg = (avg*(period-1) + current)/period` iterated from the seed averages;
`specWilderAvg values period k` is the average pair used for index
`period + k`. -/
def specWilderAvg (values : List α) (period : ℕ) : ℕ → α × α
  | 0 => specSeedAvg values period
  | k + 1 =>
    let avg := specWilderAvg values period k
    let d := getValue values (period + k + 1) -
      getValue values (period + k + 1 - 1)
    ((avg.1 * ((period : α) - 1) + max d 0) / (period : α),
     (avg.2 * ((period : α) - 1) + max (-d) 0) / (period : α))

/-- Modelled from the spec: the reference RSI value at index `j` —
`1 - 1/(1 + RS)` with `RS = avgGain/avgLoss` (`avgLoss = 0 ⇒ RS = 100`),
and the default `0.5` before the first defined value. -/
def specRSI (values : List α) (period j : ℕ) : α :=
  if values.length < 2 ∨ j < period then 1 / 2
  else
    1 - 1 / (1 + rsValue (specWilderAvg values period (j - period)).1
      (specWilderAvg values period (j - period)).2)

/-- `computeMACD` from the feature extractor:
`macd = EMA(fast) - EMA(slow)` pointwise, `signal = EMA(macd, signalPeriod)`. -/
def computeMACD (values : List α) (fastPeriod slowPeriod signalPeriod : ℕ) :
    List α × List α :=
  let fast := computeEMA values fastPeriod
  let slow := computeEMA values slowPeriod
  let macd := (List.range fast.length).map fun i =>
    getValue fast i - getValue slow i
  (macd, computeEMA macd signalPeriod)

/-- The momentum series of `computeTSI`:
`index === 0 ? 0 : value - getValue(values, index - 1)`. -/
def tsiMomentum (values : List α) : List α :=
  (List.range values.length).map fun i =>
    if i = 0 then 0 else getValue values i - getValue values (i - 1)

/-- The double-smoothed `|momentum|` denominator series of `computeTSI`. -/
def tsiDenominator (values : List α) (longPeriod shortPeriod : ℕ) : List α :=
  computeEMA (computeEMA ((tsiMomentum values).map (fun v => |v|)) shortPeriod)
    longPeriod

/-- `computeTSI` from the feature extractor.  Each output is
`denominator === 0 ? 0 : value / denominator` — an exact-zero guard only. -/
def computeTSI (values : List α) (longPeriod shortPeriod : ℕ) : List α :=
  if values.length < 2 then List.replicate values.length 0
  else
    let emaMomentum2 :=
      computeEMA (computeEMA (tsiMomentum values) shortPeriod) longPeriod
    (List.range emaMomentum2.length).map fun i =>
      let denominator := getValue (tsiDenominator values longPeriod shortPeriod) i
      if denominator = 0 then 0 else getValue emaMomentum2 i / denominator

/-- `computeMomentum` from the feature extractor: `values[i]/values[i-lookback] - 1`
for `i ≥ lookback` with an exact-zero guard on the base, zero before. -/
def computeMomentum (values : List α) (lookback : ℕ) : List α :=
  (List.range values.length).map fun i =>
    if lookback ≤ i then
      let base := getValue values (i - lookback)
      if base = 0 then 0 else getValue values i / base - 1
    else 0

/-- `computeVolumeSmaRatio` from the feature extractor:
`!base ? 0 : value / base - 1` over the volume SMA (exact-zero guard). -/
def computeVolumeSmaRatio (volumes : List α) (period : ℕ) : List α :=
  let sma := computeSMA volumes period
  (List.range volumes.length).map fun i =>
    let base := getValue sma i
    if base = 0 then 0 else getValue volumes i / base - 1

end IndicatorDefs

noncomputable section FeaturePipeline

/-- `computeLogReturn` from the feature extractor:
`prevClose > 0 ? Math.log(currentClose / prevClose) : 0`. -/
def computeLogReturn (currentClose prevClose : ℝ) : ℝ :=
  if prevClose > 0 then Real.log (currentClose / prevClose) else 0

/-- `rollingStdDev` from the feature extractor: sample standard deviation of
`values.slice(max(0, index - lookback + 1), index + 1)` with divisors
`max(len, 1)` for the mean and `max(len - 1, 1)` for the variance. -/
def rollingStdDev (values : List ℝ) (index lookback : ℕ) : ℝ :=
  let start := index + 1 - lookback
  let slice := (values.drop start).take (index + 1 - start)
  if slice.length = 0 then 0
  else
    let mean := slice.sum / max (slice.length : ℝ) 1
    let variance :=
      (slice.map (fun val => (val - mean) ^ 2)).sum / max ((slice.length : ℝ) - 1) 1
    Real.sqrt (max variance 0)

/-- `computeStdDevSeries` from the feature extractor. -/
def computeStdDevSeries (values : List ℝ) (period : ℕ) : List ℝ :=
  (List.range values.length).map fun idx => rollingStdDev values idx period

/-- `computeBollingerPercent` from the feature extractor:
`(value - sma) / (deviation * std)` with a falsiness guard on the
denominator (exact zero in this model). -/
def computeBollingerPercent (values : List ℝ) (period : ℕ) (deviation : ℝ) :
    List ℝ :=
  let sma := computeSMA values period
  let std := computeStdDevSeries values period
  (List.range values.length).map fun i =>
    let denom := deviation * getValue std i
    if denom = 0 then 0 else (getValue values i - getValue sma i) / denom

/-- The true-range series of `computeATR`:
`max(high - low, |high - prevClose|, |low - prevClose|)` with the previous
bar defaulting to the bar itself at index 0. -/
def trueRangeSeries (bars : List (TradeBar ℝ)) : List ℝ :=
  (List.range bars.length).map fun i =>
    match bars[i]? with
    | none => 0
    | some bar =>
      let prevBar := (bars[i - 1]?).getD bar
      max (bar.high - bar.low)
        (max |bar.high - prevBar.close| |bar.low - prevBar.close|)

/-- `computeATR` from the feature extractor: EMA of the true range, divided
per index by the bar close (`?? 1` when out of range, exact-zero guard). -/
def computeATR (bars : List (TradeBar ℝ)) (period : ℕ) : List ℝ :=
  let atr := computeEMA (trueRangeSeries bars) period
  (List.range atr.length).map fun i =>
    let close := ((bars[i]?).map (fun b => b.close)).getD 1
    if close = 0 then 0 else getValue atr i / close

/-- `IndicatorContext` from the feature extractor. -/
structure IndicatorContext where
  volatility : List ℝ
  smaRatio : List ℝ
  emaRatio : List ℝ
  rsi : List ℝ
  macd : List ℝ
  macdSignal : List ℝ
  tsi : List ℝ
  atrRatio : List ℝ
  volumeSmaRatio : List ℝ
  momentum : List ℝ
  bollingerPercent : List ℝ

/-- `normalizeWindow` from the feature extractor: per-column mean and sample
standard deviation (divisor `max(rows - 1, 1)`) over the window's rows;
columns with stdev `< 1e-6` are zeroed, the rest are z-scored.  The inner
`row.map((value, c) => ...)` is rendered as a map over column indices reading
`row[c] ?? 0`, which coincides with the source on the rectangular matrices
the pipeline produces.  The per-column means (the source's `means` array). -/
def windowColMeans (window : List (List ℝ)) (cols : ℕ) : List ℝ :=
  (List.range cols).map fun c =>
    (window.map (fun row => row.getD c 0)).sum / (window.length : ℝ)

/-- The per-column standard deviations of `normalizeWindow` (the source's
`variances` array after the square-root pass): divisor `max(rows - 1, 1)`. -/
noncomputable def windowColStdevs (window : List (List ℝ)) (cols : ℕ) : List ℝ :=
  (List.range cols).map fun c =>
    Real.sqrt
      ((window.map
          (fun row => (row.getD c 0 - (windowColMeans window cols).getD c 0) ^ 2)).sum /
        max ((window.length : ℝ) - 1) 1)

def normalizeWindow (window : List (List ℝ)) : List (List ℝ) :=
  let rows := window.length
  if rows = 0 then window
  else
    let cols := (window.headD []).length
    if cols = 0 then window
    else
      let means := windowColMeans window cols
      let stdevs := windowColStdevs window cols
      window.map fun row =>
        (List.range row.length).map fun c =>
          let stdev := stdevs.getD c 0
          if stdev < 1 / 10 ^ 6 then 0
          else (row.getD c 0 - means.getD c 0) / stdev

/-- `buildFeatureVector` from the feature extractor: the fixed 22-entry
per-bar vector. -/
def buildFeatureVector (bars : List (TradeBar ℝ)) (returns : List ℝ)
    (index : ℕ) (volatilityLookback : ℕ) (indicators : IndicatorContext) :
    List ℝ :=
  match bars[index]? with
  | none => List.replicate FEATURE_COUNT 0
  | some bar =>
    let prevBar := if 0 < index then (bars[index - 1]?).getD bar else bar
    let prevClose := prevBar.close
    let logReturn := computeLogReturn bar.close prevClose
    let spread := max (bar.high - bar.low) (1 / 10 ^ 12)
    let body := bar.close - bar.open_
    let upperShadow := bar.high - max bar.open_ bar.close
    let lowerShadow := min bar.open_ bar.close - bar.low
    let signVolume := bar.buyVolume - bar.sellVolume
    let totalVolume := if bar.volume = 0 then 1 / 10 ^ 12 else bar.volume
    let buyRatio := safeDivide bar.buyVolume totalVolume 0
    let volumeDelta := safeDivide signVolume totalVolume 0
    let volatility :=
      (indicators.volatility[index]?).getD
        (rollingStdDev returns index (max volatilityLookback 1))
    [bar.close, bar.vwap, logReturn,
     safeDivide spread bar.close 0,
     safeDivide body bar.open_ 0,
     safeDivide upperShadow bar.close 0,
     safeDivide lowerShadow bar.close 0,
     bar.volume, bar.notional, buyRatio, volumeDelta, volatility,
     getValue indicators.smaRatio index 0,
     getValue indicators.emaRatio index 0,
     (indicators.rsi[index]?).getD (1 / 2),
     getValue indicators.macd index 0,
     getValue indicators.macdSignal index 0,
     getValue indicators.tsi index 0,
     getValue indicators.atrRatio index 0,
     getValue indicators.volumeSmaRatio index 0,
     getValue indicators.momentum index 0,
     getValue indicators.bollingerPercent index 0]

/-- The per-bar log-return series of `buildFeatureWindows`. -/
def returnsOf (bars : List (TradeBar ℝ)) : List ℝ :=
  (List.range bars.length).map fun index =>
    match bars[index]? with
    | none => 0
    | some bar =>
      let prev := if 0 < index then (bars[index - 1]?).getD bar else bar
      computeLogReturn bar.close prev.close

/-- The `IndicatorContext` assembled inside `buildFeatureWindows`, with the
source's fixed periods. -/
def indicatorsOf (bars : List (TradeBar ℝ)) (volatilityLookback : ℕ) :
    IndicatorContext :=
  let returns := returnsOf bars
  let closes := bars.map fun bar => bar.close
  let volumes := bars.map fun bar => bar.volume
  let sma20 := computeSMA closes 20
  let ema12 := computeEMA closes 12
  let macdPair := computeMACD closes 12 26 9
  { volatility := (List.range returns.length).map fun idx =>
      rollingStdDev returns idx (max volatilityLookback 1)
    smaRatio := (List.range closes.length).map fun i =>
      let base := getValue sma20 i
      if base = 0 then 0 else getValue closes i / base - 1
    emaRatio := (List.range closes.length).map fun i =>
      let base := getValue ema12 i
      if base = 0 then 0 else getValue closes i / base - 1
    rsi := computeRSI closes 14
    macd := macdPair.1
    macdSignal := macdPair.2
    tsi := computeTSI closes 25 13
    atrRatio := computeATR bars 14
    volumeSmaRatio := computeVolumeSmaRatio volumes 20
    momentum := computeMomentum closes 5
    bollingerPercent := computeBollingerPercent closes 20 2 }

/-- The raw (pre-normalization) feature matrix of the window whose first bar
has index `s`, as built inside the `buildFeatureWindows` loop: the rows are
`buildFeatureVector` at bar indices `s, s+1, …` over the window bars. -/
def featureMatrixAt (bars : List (TradeBar ℝ)) (volatilityLookback s
    windowSize : ℕ) : List (List ℝ) :=
  (List.range ((bars.drop s).take windowSize).length).map fun offset =>
    buildFeatureVector bars (returnsOf bars) (s + offset) volatilityLookback
      (indicatorsOf bars volatilityLookback)

/-- `buildFeatureWindows` from the feature extractor.  The source loop runs
`idx` from `windowSize - 1` to `bars.length - 2`; it is re-indexed here by
the window start `s = idx - (windowSize - 1)`, ranging over
`0 … bars.length - windowSize - 1`, which is faithful for `windowSize ≥ 1`
(the configuration surface requires `windowSize > 0`).  The `!currentBar ||
!nextBar` `continue` of the source is the `none` branch of the match. -/
def buildFeatureWindows (bars : List (TradeBar ℝ))
    (options : FeatureExtractionOptions) : List FeatureWindow :=
  let windowSize := options.windowSize
  if bars.length ≤ windowSize then []
  else
    (List.range (bars.length - windowSize)).filterMap fun s =>
      let windowBars := (bars.drop s).take windowSize
      let featureMatrix := featureMatrixAt bars options.volatilityLookback s
        windowSize
      let normalized :=
        if options.normalizePerFeature then normalizeWindow featureMatrix
        else featureMatrix
      match bars[s + windowSize - 1]?, bars[s + windowSize]? with
      | some currentBar, some nextBar =>
        some
          { window := normalized
            label := if nextBar.close > currentBar.close then 1 else 0
            lastClose := currentBar.close
            nextClose := nextBar.close
            bars := windowBars }
      | _, _ => none

/-- `buildFeatureWindow` from the feature extractor: the last window of
`buildFeatureWindows` with normalization on, or `null`. -/
def buildFeatureWindow (bars : List (TradeBar ℝ)) (windowSize : ℕ) :
    Option FeatureWindow :=
  (buildFeatureWindows bars
    { windowSize := windowSize, normalizePerFeature := true }).getLast?

/-- The training/inference split of `runTradingCycle`
(src/unnamed/part_002 lines 339-340): `trainingSamples =
featureWindows.slice(0, -1)` and `latestWindow = featureWindows.at(-1)`. -/
def cycleSplit (featureWindows : List FeatureWindow) :
    List FeatureWindow × Option FeatureWindow :=
  (featureWindows.dropLast, featureWindows.getLast?)

/-- The pure window-selection core of `runTradingCycle`: after aggregation,
the cycle short-circuits when `bars.length ≤ featureWindowSize`, otherwise
builds feature windows with `volatilityLookback = min(featureWindowSize, 16)`
and normalization on, and splits them into training samples and the
inference target.  The external fetch, model and persistence steps consume
this split unchanged. -/
def runTradingCycleWindows (bars : List (TradeBar ℝ))
    (featureWindowSize : ℕ) : List FeatureWindow × Option FeatureWindow :=
  if bars.length ≤ featureWindowSize then ([], none)
  else
    cycleSplit
      (buildFeatureWindows bars
        { windowSize := featureWindowSize
          normalizePerFeature := true
          volatilityLookback := min featureWindowSize 16 })

/-- Column `c` of a feature matrix, read with the source's `row[c] ?? 0`. -/
def column (M : List (List ℝ)) (c : ℕ) : List ℝ :=
  M.map fun row => row.getD c 0

/-- Mean of a list of reals (spec's per-column window mean). -/
def colMean (xs : List ℝ) : ℝ :=
  xs.sum / (xs.length : ℝ)

/-- Sample standard deviation with divisor `max(n - 1, 1)` (spec's per-column
window standard deviation). -/
def sampleStdev (xs : List ℝ) : ℝ :=
  Real.sqrt ((xs.map (fun x => (x - colMean xs) ^ 2)).sum /
    max ((xs.length : ℝ) - 1) 1)

end FeaturePipeline

/-- The body of the `buildFeatureWindows` loop for window start `s`, as a
standalone function: the window record built from the (optionally
normalized) feature matrix, the labelling bars at indices
`s + windowSize - 1` and `s + windowSize`, and the sliced source bars.  The
unreachable `none` branch returns the placeholder window. -/
noncomputable def windowAt (bars : List (TradeBar ℝ))
    (options : FeatureExtractionOptions) (s : ℕ) : FeatureWindow :=
  let windowSize := options.windowSize
  let windowBars := (bars.drop s).take windowSize
  let featureMatrix := featureMatrixAt bars options.volatilityLookback s
    windowSize
  let normalized :=
    if options.normalizePerFeature then normalizeWindow featureMatrix
    else featureMatrix
  match bars[s + windowSize - 1]?, bars[s + windowSize]? with
  | some currentBar, some nextBar =>
    { window := normalized
      label := if nextBar.close > currentBar.close then 1 else 0
      lastClose := currentBar.close
      nextClose := nextBar.close
      bars := windowBars }
  | _, _ => emptyFeatureWindow

/-- A concrete configuration with a non-default volatility target. -/
noncomputable def riskConfigOne : RiskMapConfig :=
  { volatilityTarget := some 1 }

/-- Concrete close series exhibiting a tiny nonzero TSI denominator. -/
noncomputable def tsiProbe : List ℝ := [0, 1 / 10 ^ 13]

/-- A concrete single-trade bar for feature-pipeline test inputs. -/
noncomputable def probeBar (startTime : ℕ) (price : ℝ) : TradeBar ℝ where
  startTime := startTime
  endTime := startTime + 60000
  open_ := price
  high := price
  low := price
  close := price
  volume := 1
  buyVolume := 1
  sellVolume := 0
  tradeCount := 1
  notional := price
  vwap := price

/-- Three concrete bars with strictly increasing closes, one minute apart. -/
noncomputable def cycleBars : List (TradeBar ℝ) :=
  [probeBar 0 10, probeBar 60000 20, probeBar 120000 30]

/-- Two concrete bars for witness instantiations. -/
noncomputable def pairBars : List (TradeBar ℝ) :=
  [probeBar 0 10, probeBar 60000 20]

/-- The feature windows the trading cycle builds over `cycleBars` with
window size 1 (the cycle passes `volatilityLookback = min(windowSize, 16)`). -/
noncomputable def cycleWindows : List FeatureWindow :=
  buildFeatureWindows cycleBars
    { windowSize := 1
      normalizePerFeature := true
      volatilityLookback := min 1 16 }

/-- A placeholder rational bar used as the `getD` default in statements. -/
def emptyBarQ : TradeBar ℚ where
  startTime := 0
  endTime := 0
  open_ := 0
  high := 0
  low := 0
  close := 0
  volume := 0
  buyVolume := 0
  sellVolume := 0
  tradeCount := 0
  notional := 0
  vwap := 0

/-- Concrete trade: buy 1 unit at price 1, time 0. -/
def tradeA : KucoinTrade :=
  { sequence := "1", price := 1, size := 1, side := Side.buy, time := 0 }

/-- Concrete trade: sell 2 units at price 2, time 1 (same minute bucket). -/
def tradeB : KucoinTrade :=
  { sequence := "2", price := 2, size := 2, side := Side.sell, time := 1 }

/-- Concrete trade with size `4e-9`, below half of the `1e-8` rounding step. -/
def tradeC : KucoinTrade :=
  { sequence := "3", price := 1, size := 1 / 250000000, side := Side.buy,
    time := 0 }

/-- Concrete sell trade with size `4e-9`, time 1. -/
def tradeD : KucoinTrade :=
  { sequence := "4", price := 1, size := 1 / 250000000, side := Side.sell,
    time := 1 }

/-- Concrete trade two minute-buckets later. -/
def tradeE : KucoinTrade :=
  { sequence := "5", price := 3, size := 1, side := Side.buy, time := 120000 }

/-- Reading a `(List.range n).map f` list at an in-range index. -/
theorem getD_map_range {β : Type} (f : ℕ → β) (d : β) {i n : ℕ} (h : i < n) :
    ((List.range n).map f).getD i d = f i := by
  simp [List.getD_eq_getElem?_getD, List.getElem?_map, List.getElem?_range h]

/-- Reading a `(List.range n).map f` list out of range gives the default. -/
theorem getD_map_range_ge {β : Type} (f : ℕ → β) (d : β) {i n : ℕ} (h : n ≤ i) :
    ((List.range n).map f).getD i d = d := by
  rw [List.getD_eq_getElem?_getD, List.getElem?_eq_none (by simpa using h)]
  rfl

/-- `computeEMA` preserves the series length. -/
theorem computeEMA_length {α : Type} [LinearOrderedField α] (values : List α)
    (period : ℕ) : (computeEMA values period).length = values.length := by
  cases values with
  | nil => rfl
  | cons v rest => simp [computeEMA, List.length_scanl]

/-- C5: `applyRiskMap` computes exactly the spec's clip/deadband/scale/clamp
algorithm on the merged configuration; with the default configuration,
probability `0.5` maps to exposure `0`, probability `0.9` at forecast
volatility `0.01` maps to exposure `0.5`, and every exposure lies in
`[-maxExposure, maxExposure] = [-0.5, 0.5]`. -/
theorem spec_c5 :
    (∀ probability forecastVolatility config,
      applyRiskMap probability forecastVolatility config =
        riskMapSpec probability forecastVolatility
          (mergeConfig config).neutralZone
          (mergeConfig config).volatilityTarget
          (mergeConfig config).volatilityFloor
          (mergeConfig config).maxExposure)
    ∧ (∀ forecastVolatility, applyRiskMap (1 / 2) forecastVolatility {} = 0)
    ∧ applyRiskMap (9 / 10) (1 / 100) {} = 1 / 2
    ∧ (∀ probability forecastVolatility,
        -(1 / 2) ≤ applyRiskMap probability forecastVolatility {} ∧
        applyRiskMap probability forecastVolatility {} ≤ 1 / 2) := by
  have hmerge : mergeConfig {} = defaultConfig := rfl
  refine ⟨fun p fv c => rfl, ?_, ?_, ?_⟩
  · intro fv
    have h1 : min (max (1 / 2 : ℝ) 0) 1 = 1 / 2 := by
      rw [max_eq_left (by norm_num), min_eq_left (by norm_num)]
    simp only [applyRiskMap, hmerge, defaultConfig, h1]
    norm_num
  · have h1 : min (max (9 / 10 : ℝ) 0) 1 = 9 / 10 := by
      rw [max_eq_left (by norm_num), min_eq_left (by norm_num)]
    have h2 : max (1 / 100 : ℝ) (1 / 10 ^ 4) = 1 / 100 := by
      rw [max_eq_left (by norm_num)]
    simp only [applyRiskMap, hmerge, defaultConfig, h1, h2]
    have habs : |(9 / 10 : ℝ) * 2 - 1| = 9 / 10 * 2 - 1 :=
      abs_of_nonneg (by norm_num)
    rw [if_neg (by rw [habs]; norm_num)]
    have h3 : min ((15 / 1000 : ℝ) / (1 / 100)) 1 = 1 := by
      rw [min_eq_right (by norm_num)]
    rw [h3]
    have h4 : min (1 / 2 : ℝ) (9 / 10 * 2 - 1) = 1 / 2 := by
      rw [min_eq_left (by norm_num)]
    rw [show (9 / 10 * 2 - 1 : ℝ) * 1 = 9 / 10 * 2 - 1 by ring, h4]
    rw [max_eq_right (by norm_num)]
  · intro p fv
    simp only [applyRiskMap, hmerge, defaultConfig]
    split
    · norm_num
    · constructor
      · exact le_max_left _ _
      · exact max_le (by norm_num) (min_le_left _ _)

/-- C9 (amended): `computeForecastVolatility` returns the module-level
default volatility target `0.015` on an empty return list (it takes no
configuration), and for a positive lookback on a nonempty list it returns
the sample standard deviation (divisor `max(n-1,1)`) of the trailing
`lookback` returns. -/
theorem spec_c9 :
    (∀ lookback,
      computeForecastVolatility [] lookback = defaultConfig.volatilityTarget)
    ∧ ∀ (returns : List ℝ) (lookback : ℕ), 1 ≤ lookback → returns ≠ [] →
        computeForecastVolatility returns lookback =
          sampleStdev (returns.drop (returns.length - lookback)) := by
  constructor
  · intro lookback
    simp [computeForecastVolatility]
  · intro returns lookback hlb hne
    have hlen : 0 < returns.length := List.length_pos.mpr hne
    have hslice : (returns.drop (returns.length - lookback)).length =
        returns.length - (returns.length - lookback) := List.length_drop _ _
    have hpos : 0 < (returns.drop (returns.length - lookback)).length := by
      rw [hslice]; omega
    rw [computeForecastVolatility]
    rw [if_neg (by omega)]
    simp only []
    rw [if_neg (by omega)]
    unfold sampleStdev colMean
    congr 1
    rw [max_eq_left]
    have hd : (0 : ℝ) <
        max (((returns.drop (returns.length - lookback)).length : ℝ) - 1) 1 :=
      lt_max_of_lt_right one_pos
    apply div_nonneg _ (le_of_lt hd)
    apply List.sum_nonneg
    intro x hx
    simp only [List.mem_map] at hx
    obtain ⟨y, _, rfl⟩ := hx
    positivity

/-- C9 witness: the trailing-stdev branch at a concrete input. -/
theorem spec_c9_witness :
    (1 ≤ 1) ∧ ([(1 : ℝ)] ≠ []) ∧
    computeForecastVolatility [(1 : ℝ)] 1 =
      sampleStdev ([(1 : ℝ)].drop ([(1 : ℝ)].length - 1)) :=
  ⟨le_rfl, by simp, spec_c9.2 [(1 : ℝ)] 1 le_rfl (by simp)⟩

/-- C9 counterexample: on empty history `computeForecastVolatility` ignores
the configured volatility target (here `1`) and returns the default
`0.015`. -/
theorem spec_c9_counterexample :
    computeForecastVolatility [] 5 = defaultConfig.volatilityTarget ∧
    (mergeConfig riskConfigOne).volatilityTarget = 1 ∧
    computeForecastVolatility [] 5 ≠
      (mergeConfig riskConfigOne).volatilityTarget := by
  refine ⟨by simp [computeForecastVolatility], rfl, ?_⟩
  simp only [computeForecastVolatility, List.length_nil, if_pos rfl]
  show defaultConfig.volatilityTarget ≠ (mergeConfig riskConfigOne).volatilityTarget
  simp only [defaultConfig, mergeConfig, riskConfigOne, Option.getD_some]
  norm_num

/-- C3 (amended): the shared `safeDivide` helper does return the fallback
whenever the denominator's magnitude is below `1e-12` (and divides
otherwise), but the indicator-internal divisions guard only against an
exactly-zero denominator: `computeTSI` divides unless its double-smoothed
`|momentum|` denominator is exactly `0`, and `computeATR` divides unless the
bar close is exactly `0`. -/
theorem spec_c3 :
    (∀ numerator denominator fallback : ℝ,
      |denominator| < 1 / 10 ^ 12 →
        safeDivide numerator denominator fallback = fallback)
    ∧ (∀ numerator denominator fallback : ℝ,
      1 / 10 ^ 12 ≤ |denominator| →
        safeDivide numerator denominator fallback = numerator / denominator)
    ∧ (∀ (values : List ℝ) (longPeriod shortPeriod i : ℕ),
        getValue (tsiDenominator values longPeriod shortPeriod) i = 0 →
        getValue (computeTSI values longPeriod shortPeriod) i = 0)
    ∧ (∀ (bars : List (TradeBar ℝ)) (period i : ℕ) (bar : TradeBar ℝ),
        bars[i]? = some bar → bar.close = 0 →
        getValue (computeATR bars period) i = 0) := by
  refine ⟨fun n d f h => if_pos h, fun n d f h => if_neg (not_lt.mpr h), ?_, ?_⟩
  · intro values longPeriod shortPeriod i hden
    rw [computeTSI]
    split
    · simp [getValue]
    · rcases lt_or_le i
        (computeEMA (computeEMA (tsiMomentum values) shortPeriod)
          longPeriod).length with hi | hi
      · rw [getValue, getD_map_range _ _ hi, hden, if_pos rfl]
      · rw [getValue, getD_map_range_ge _ _ hi]
  · intro bars period i bar hbar hclose
    have hi : i < (computeEMA (trueRangeSeries bars) period).length := by
      rw [computeEMA_length, trueRangeSeries, List.length_map,
        List.length_range]
      exact (List.getElem?_eq_some.mp hbar).1
    rw [computeATR, getValue, getD_map_range _ _ hi, hbar]
    simp [hclose]

/-- C3 witness: `safeDivide` at a sub-threshold denominator returns the
fallback, and at an above-threshold denominator divides. -/
theorem spec_c3_witness :
    (|(1 / 10 ^ 13 : ℝ)| < 1 / 10 ^ 12 ∧
      safeDivide (1 : ℝ) (1 / 10 ^ 13) 5 = 5) ∧
    ((1 / 10 ^ 12 : ℝ) ≤ |(2 : ℝ)| ∧
      safeDivide (1 : ℝ) 2 5 = 1 / 2) :=
  ⟨⟨by rw [abs_of_nonneg (by norm_num)]; norm_num,
    spec_c3.1 1 (1 / 10 ^ 13) 5 (by rw [abs_of_nonneg (by norm_num)]; norm_num)⟩,
   ⟨by rw [abs_of_nonneg (by norm_num)]; norm_num,
    by rw [spec_c3.2.1 1 2 5 (by rw [abs_of_nonneg (by norm_num)]; norm_num)]⟩⟩

/-- C3 counterexample: on the series `[0, 1e-13]` the TSI denominator at
index 1 is `1e-13/91`, whose magnitude lies strictly between `0` and
`1e-12`, yet the TSI value is `1`, not the fallback `0`: the claimed
`1e-12` safe-divide guard is absent from the indicator-internal division. -/
theorem spec_c3_counterexample :
    getValue (tsiDenominator tsiProbe 25 13) 1 = 1 / 10 ^ 13 / 91 ∧
    0 < |(1 / 10 ^ 13 / 91 : ℝ)| ∧
    |(1 / 10 ^ 13 / 91 : ℝ)| < 1 / 10 ^ 12 ∧
    getValue (computeTSI tsiProbe 25 13) 1 = 1 := by
  have hrange : List.range 2 = [0, 1] := rfl
  have hmom : tsiMomentum tsiProbe = [0, 1 / 10 ^ 13] := by
    simp only [tsiMomentum, tsiProbe, List.length_cons, List.length_nil,
      hrange, List.map_cons, List.map_nil, if_pos rfl, getValue]
    norm_num
  have habs : (tsiMomentum tsiProbe).map (fun v => |v|) = [0, 1 / 10 ^ 13] := by
    rw [hmom]
    simp only [List.map_cons, List.map_nil, abs_zero]
    rw [abs_of_nonneg (by norm_num)]
  have hema1 : computeEMA [(0 : ℝ), 1 / 10 ^ 13] 13 =
      [0, 1 / 10 ^ 13 / 7] := by
    simp only [computeEMA, List.scanl]
    norm_num
  have hema2 : computeEMA [(0 : ℝ), 1 / 10 ^ 13 / 7] 25 =
      [0, 1 / 10 ^ 13 / 91] := by
    simp only [computeEMA, List.scanl]
    norm_num
  have hden : tsiDenominator tsiProbe 25 13 = [0, 1 / 10 ^ 13 / 91] := by
    rw [tsiDenominator, habs, hema1, hema2]
  have hdenval : getValue (tsiDenominator tsiProbe 25 13) 1 =
      1 / 10 ^ 13 / 91 := by
    rw [hden, getValue]; rfl
  refine ⟨hdenval, ?_, ?_, ?_⟩
  · rw [abs_of_nonneg (by norm_num)]; norm_num
  · rw [abs_of_nonneg (by norm_num)]; norm_num
  · rw [computeTSI, if_neg (by simp [tsiProbe])]
    have hm2 : computeEMA (computeEMA (tsiMomentum tsiProbe) 13) 25 =
        [0, 1 / 10 ^ 13 / 91] := by rw [hmom, hema1, hema2]
    simp only [hm2, List.length_cons, List.length_nil, Nat.zero_add, hrange,
      List.map_cons, List.map_nil]
    rw [getValue, List.getD_cons_succ, List.getD_cons_zero, hdenval,
      if_neg (by norm_num)]
    rw [getValue, List.getD_cons_succ, List.getD_cons_zero]
    norm_num

/-- A `filterMap` whose function always succeeds is a `map`. -/
theorem filterMap_eq_map_of_forall {β γ : Type} {l : List β} {f : β → Option γ}
    {g : β → γ} (h : ∀ a ∈ l, f a = some (g a)) : l.filterMap f = l.map g := by
  induction l with
  | nil => rfl
  | cons x xs ih =>
    rw [List.filterMap_cons, h x (List.mem_cons_self x xs), List.map_cons,
      ih fun a ha => h a (List.mem_cons_of_mem x ha)]

/-- Every feature vector has exactly `FEATURE_COUNT = 22` entries. -/
theorem buildFeatureVector_length (bars : List (TradeBar ℝ)) (returns : List ℝ)
    (index volatilityLookback : ℕ) (indicators : IndicatorContext) :
    (buildFeatureVector bars returns index volatilityLookback
      indicators).length = FEATURE_COUNT := by
  rw [buildFeatureVector]
  cases bars[index]? <;> simp [FEATURE_COUNT]

/-- `normalizeWindow` preserves the number of rows. -/
theorem normalizeWindow_length (window : List (List ℝ)) :
    (normalizeWindow window).length = window.length := by
  rw [normalizeWindow]
  split
  · rfl
  · dsimp only
    split
    · rfl
    · simp

/-- The feature matrix of a window has one row per window bar. -/
theorem featureMatrixAt_length (bars : List (TradeBar ℝ))
    (volatilityLookback s windowSize : ℕ) :
    (featureMatrixAt bars volatilityLookback s windowSize).length =
      ((bars.drop s).take windowSize).length := by
  simp [featureMatrixAt]

/-- On sufficient data the `buildFeatureWindows` filterMap never skips: it is
the map of `windowAt` over the window starts `0 … bars.length - windowSize - 1`. -/
theorem buildFeatureWindows_eq_map (bars : List (TradeBar ℝ))
    (options : FeatureExtractionOptions) (h1 : 1 ≤ options.windowSize)
    (h2 : options.windowSize < bars.length) :
    buildFeatureWindows bars options =
      (List.range (bars.length - options.windowSize)).map
        (windowAt bars options) := by
  rw [buildFeatureWindows, if_neg (by omega)]
  apply filterMap_eq_map_of_forall
  intro s hs
  rw [List.mem_range] at hs
  have hcur : s + options.windowSize - 1 < bars.length := by omega
  have hnext : s + options.windowSize < bars.length := by omega
  simp only [windowAt, List.getElem?_eq_getElem hcur,
    List.getElem?_eq_getElem hnext]

/-- Number of feature windows on sufficient data. -/
theorem buildFeatureWindows_length (bars : List (TradeBar ℝ))
    (options : FeatureExtractionOptions) (h1 : 1 ≤ options.windowSize)
    (h2 : options.windowSize < bars.length) :
    (buildFeatureWindows bars options).length =
      bars.length - options.windowSize := by
  rw [buildFeatureWindows_eq_map bars options h1 h2]
  simp

/-- The feature window at start `s`. -/
theorem buildFeatureWindows_getD (bars : List (TradeBar ℝ))
    (options : FeatureExtractionOptions) (s : ℕ) (h1 : 1 ≤ options.windowSize)
    (h2 : options.windowSize < bars.length)
    (hs : s < bars.length - options.windowSize) :
    (buildFeatureWindows bars options).getD s emptyFeatureWindow =
      windowAt bars options s := by
  rw [buildFeatureWindows_eq_map bars options h1 h2, getD_map_range _ _ hs]

/-- Explicit field values of `windowAt` when both labelling bars exist. -/
theorem windowAt_fields (bars : List (TradeBar ℝ))
    (options : FeatureExtractionOptions) (s : ℕ)
    (currentBar nextBar : TradeBar ℝ)
    (hcur : bars[s + options.windowSize - 1]? = some currentBar)
    (hnext : bars[s + options.windowSize]? = some nextBar) :
    windowAt bars options s =
      { window :=
          if options.normalizePerFeature then
            normalizeWindow (featureMatrixAt bars options.volatilityLookback s
              options.windowSize)
          else featureMatrixAt bars options.volatilityLookback s
            options.windowSize
        label := if nextBar.close > currentBar.close then 1 else 0
        lastClose := currentBar.close
        nextClose := nextBar.close
        bars := (bars.drop s).take options.windowSize } := by
  simp only [windowAt, hcur, hnext]

/-- The last bar of the `s`-th window slice is the bar at `s + windowSize - 1`. -/
theorem windowBars_getLast? (bars : List (TradeBar ℝ)) (s windowSize : ℕ)
    (h1 : 1 ≤ windowSize) (h : s + windowSize ≤ bars.length) :
    ((bars.drop s).take windowSize).getLast? = bars[s + windowSize - 1]? := by
  have hlen : ((bars.drop s).take windowSize).length = windowSize := by
    simp only [List.length_take, List.length_drop]
    omega
  rw [List.getLast?_eq_getElem?, hlen,
    List.getElem?_take_of_lt (by omega : windowSize - 1 < windowSize),
    List.getElem?_drop]
  congr 1
  omega

/-- C7: `buildFeatureWindows` is empty whenever `bars.length ≤ windowSize`
(including equality), and on `bars.length > windowSize` (with a positive
window size, as the configuration surface requires) it returns exactly
`bars.length - windowSize` windows, each holding exactly `windowSize`
feature vectors. -/
theorem spec_c7 (bars : List (TradeBar ℝ))
    (options : FeatureExtractionOptions) (w : FeatureWindow) :
    (bars.length ≤ options.windowSize → buildFeatureWindows bars options = [])
    ∧ (1 ≤ options.windowSize → options.windowSize < bars.length →
        (buildFeatureWindows bars options).length =
          bars.length - options.windowSize)
    ∧ (1 ≤ options.windowSize → options.windowSize < bars.length →
        w ∈ buildFeatureWindows bars options →
        w.window.length = options.windowSize) := by
  refine ⟨fun h => by rw [buildFeatureWindows, if_pos h], ?_, ?_⟩
  · intro h1 h2
    exact buildFeatureWindows_length bars options h1 h2
  · intro h1 h2 hw
    rw [buildFeatureWindows_eq_map bars options h1 h2, List.mem_map] at hw
    obtain ⟨s, hs, rfl⟩ := hw
    rw [List.mem_range] at hs
    have hnext : s + options.windowSize < bars.length := by omega
    have hcur : s + options.windowSize - 1 < bars.length := by omega
    rw [windowAt_fields bars options s _ _ (List.getElem?_eq_getElem hcur)
      (List.getElem?_eq_getElem hnext)]
    show (if options.normalizePerFeature then _ else _ : List (List ℝ)).length = _
    split
    · rw [normalizeWindow_length, featureMatrixAt_length]
      simp only [List.length_take, List.length_drop]
      omega
    · rw [featureMatrixAt_length]
      simp only [List.length_take, List.length_drop]
      omega

/-- C7 witness: boundary emptiness at `bars.length = windowSize = 2` and
counts at `windowSize = 1` over two bars. -/
theorem spec_c7_witness :
    (pairBars.length ≤ 2 ∧ buildFeatureWindows pairBars { windowSize := 2 } = [])
    ∧ (1 ≤ 1 ∧ 1 < pairBars.length ∧
       (buildFeatureWindows pairBars { windowSize := 1 }).length =
         pairBars.length - 1)
    ∧ ((buildFeatureWindows pairBars { windowSize := 1 }).getD 0
          emptyFeatureWindow ∈ buildFeatureWindows pairBars { windowSize := 1 } ∧
       ((buildFeatureWindows pairBars { windowSize := 1 }).getD 0
          emptyFeatureWindow).window.length = 1) := by
  have hlen : 1 < pairBars.length := by simp [pairBars]
  have hcount : (buildFeatureWindows pairBars { windowSize := 1 }).length = 1 := by
    rw [buildFeatureWindows_length pairBars { windowSize := 1 } le_rfl hlen]
    simp [pairBars]
  have hmem : (buildFeatureWindows pairBars { windowSize := 1 }).getD 0
      emptyFeatureWindow ∈ buildFeatureWindows pairBars { windowSize := 1 } := by
    rw [List.getD_eq_getElem?_getD, List.getElem?_eq_getElem (by omega),
      Option.getD_some]
    exact List.getElem_mem _
  refine ⟨⟨by simp [pairBars],
    (spec_c7 pairBars { windowSize := 2 } emptyFeatureWindow).1
      (by simp [pairBars])⟩,
    ⟨le_rfl, hlen, (spec_c7 pairBars { windowSize := 1 }
      emptyFeatureWindow).2.1 le_rfl hlen⟩,
    hmem, ?_⟩
  exact (spec_c7 pairBars { windowSize := 1 } _).2.2 le_rfl hlen hmem

/-- C1 (amended): with `bars.length > windowSize ≥ 1`, `buildFeatureWindows`
produces exactly `bars.length - windowSize` windows and every produced
window carries a label computed from the bar immediately following its last
bar (`1` iff that next close strictly exceeds the window's last close); a
window ending at the final bar is never produced.  The cycle splits off all
windows except the last produced one as training samples and uses the last
produced window — which ends at the second-to-last bar and is itself
labelled from the final bar — as the inference target. -/
theorem spec_c1 (bars : List (TradeBar ℝ)) (featureWindowSize s : ℕ)
    (currentBar nextBar : TradeBar ℝ) (fw : List FeatureWindow)
    (h1 : 1 ≤ featureWindowSize) (h2 : featureWindowSize < bars.length)
    (hfw : fw = buildFeatureWindows bars
      { windowSize := featureWindowSize
        normalizePerFeature := true
        volatilityLookback := min featureWindowSize 16 })
    (hs : s < bars.length - featureWindowSize)
    (hcur : bars[s + featureWindowSize - 1]? = some currentBar)
    (hnext : bars[s + featureWindowSize]? = some nextBar) :
    fw.length = bars.length - featureWindowSize
    ∧ (fw.getD s emptyFeatureWindow).label =
        (if nextBar.close > currentBar.close then 1 else 0)
    ∧ (fw.getD s emptyFeatureWindow).lastClose = currentBar.close
    ∧ (fw.getD s emptyFeatureWindow).nextClose = nextBar.close
    ∧ (fw.getD s emptyFeatureWindow).bars.getLast? = some currentBar
    ∧ runTradingCycleWindows bars featureWindowSize =
        (fw.dropLast, fw.getLast?)
    ∧ fw.getLast? =
        some (fw.getD (bars.length - featureWindowSize - 1) emptyFeatureWindow)
    ∧ (fw.getD (bars.length - featureWindowSize - 1)
        emptyFeatureWindow).bars.getLast? = bars[bars.length - 2]? := by
  subst hfw
  have hlen : (buildFeatureWindows bars
      { windowSize := featureWindowSize
        normalizePerFeature := true
        volatilityLookback := min featureWindowSize 16 }).length =
      bars.length - featureWindowSize :=
    buildFeatureWindows_length bars _ h1 h2
  have hgetD := buildFeatureWindows_getD bars
    { windowSize := featureWindowSize
      normalizePerFeature := true
      volatilityLookback := min featureWindowSize 16 } s h1 h2 hs
  have hfields := windowAt_fields bars
    { windowSize := featureWindowSize
      normalizePerFeature := true
      volatilityLookback := min featureWindowSize 16 } s currentBar nextBar
    hcur hnext
  have hlast' : s + featureWindowSize ≤ bars.length := by
    obtain ⟨hx, -⟩ := List.getElem?_eq_some.mp hnext
    omega
  refine ⟨hlen, ?_, ?_, ?_, ?_, ?_, ?_, ?_⟩
  · rw [hgetD, hfields]
  · rw [hgetD, hfields]
  · rw [hgetD, hfields]
  · rw [hgetD, hfields]
    show ((bars.drop s).take featureWindowSize).getLast? = some currentBar
    rw [windowBars_getLast? bars s featureWindowSize h1 hlast']
    exact hcur
  · rw [runTradingCycleWindows, if_neg (by omega)]
    rfl
  · rw [List.getLast?_eq_getElem?, hlen, List.getD_eq_getElem?_getD,
      List.getElem?_eq_getElem (by rw [hlen]; omega), Option.getD_some]
  · have hs' : bars.length - featureWindowSize - 1 <
        bars.length - featureWindowSize := by omega
    have hc1 : bars.length - featureWindowSize - 1 + featureWindowSize - 1 <
        bars.length := by omega
    have hc2 : bars.length - featureWindowSize - 1 + featureWindowSize <
        bars.length := by omega
    rw [buildFeatureWindows_getD bars _ _ h1 h2 hs',
      windowAt_fields bars _ _ (bars.get ⟨_, hc1⟩) (bars.get ⟨_, hc2⟩)
        (List.getElem?_eq_getElem hc1) (List.getElem?_eq_getElem hc2)]
    show ((bars.drop (bars.length - featureWindowSize - 1)).take
        featureWindowSize).getLast? = _
    rw [windowBars_getLast? bars _ featureWindowSize h1 (by omega)]
    congr 1
    omega

/-- C1 witness: the amended statement at three concrete bars with window
size 1, inspecting the window starting at bar 0. -/
theorem spec_c1_witness :
    (1 ≤ 1) ∧ 1 < cycleBars.length ∧ 0 < cycleBars.length - 1 ∧
    (cycleWindows.length = cycleBars.length - 1
     ∧ (cycleWindows.getD 0 emptyFeatureWindow).label =
         (if (probeBar 60000 20).close > (probeBar 0 10).close then 1 else 0)
     ∧ (cycleWindows.getD 0 emptyFeatureWindow).lastClose =
         (probeBar 0 10).close
     ∧ (cycleWindows.getD 0 emptyFeatureWindow).nextClose =
         (probeBar 60000 20).close
     ∧ (cycleWindows.getD 0 emptyFeatureWindow).bars.getLast? =
         some (probeBar 0 10)
     ∧ runTradingCycleWindows cycleBars 1 =
         (cycleWindows.dropLast, cycleWindows.getLast?)
     ∧ cycleWindows.getLast? =
         some (cycleWindows.getD (cycleBars.length - 1 - 1) emptyFeatureWindow)
     ∧ (cycleWindows.getD (cycleBars.length - 1 - 1)
         emptyFeatureWindow).bars.getLast? = cycleBars[cycleBars.length - 2]?) :=
  ⟨le_rfl, by simp [cycleBars], by simp [cycleBars],
    spec_c1 cycleBars 1 0 (probeBar 0 10) (probeBar 60000 20) cycleWindows
      le_rfl (by simp [cycleBars]) rfl (by simp [cycleBars]) rfl rfl⟩

/-- C1 counterexample: over three bars with closes `10, 20, 30` and window
size 1, the cycle's inference target is the last produced window — its source
bars end at the second-to-last bar (start time `60000`, not the final bar's
`120000`) and it carries label `1` computed from the final bar — refuting
the claim that the inference window is an unlabelled window ending at the
final bar. -/
theorem spec_c1_counterexample :
    ((runTradingCycleWindows cycleBars 1).2.map fun w =>
        w.bars.map fun b => b.startTime) = some [60000]
    ∧ (cycleBars.getLast?.map fun b => b.startTime) = some 120000
    ∧ ((runTradingCycleWindows cycleBars 1).2.map fun w => w.label) = some 1
    ∧ ((runTradingCycleWindows cycleBars 1).2.map fun w =>
        w.bars.map fun b => b.startTime) ≠ some [120000] := by
  have h2 : 1 < cycleBars.length := by simp [cycleBars]
  have heq := buildFeatureWindows_eq_map cycleBars
    { windowSize := 1, normalizePerFeature := true,
      volatilityLookback := min 1 16 } le_rfl h2
  have hfw : buildFeatureWindows cycleBars
      { windowSize := 1, normalizePerFeature := true,
        volatilityLookback := min 1 16 } =
      [windowAt cycleBars
        { windowSize := 1, normalizePerFeature := true,
          volatilityLookback := min 1 16 } 0,
       windowAt cycleBars
        { windowSize := 1, normalizePerFeature := true,
          volatilityLookback := min 1 16 } 1] := by
    rw [heq, show cycleBars.length - 1 = 2 from by simp [cycleBars]]
    rfl
  have hw1 : windowAt cycleBars
      { windowSize := 1, normalizePerFeature := true,
        volatilityLookback := min 1 16 } 1 =
      { window :=
          normalizeWindow (featureMatrixAt cycleBars (min 1 16) 1 1)
        label := if (probeBar 120000 30).close > (probeBar 60000 20).close
          then 1 else 0
        lastClose := (probeBar 60000 20).close
        nextClose := (probeBar 120000 30).close
        bars := (cycleBars.drop 1).take 1 } :=
    windowAt_fields cycleBars
      { windowSize := 1, normalizePerFeature := true,
        volatilityLookback := min 1 16 } 1 (probeBar 60000 20)
      (probeBar 120000 30) rfl rfl
  have hcycle : runTradingCycleWindows cycleBars 1 =
      ((buildFeatureWindows cycleBars
        { windowSize := 1, normalizePerFeature := true,
          volatilityLookback := min 1 16 }).dropLast,
       (buildFeatureWindows cycleBars
        { windowSize := 1, normalizePerFeature := true,
          volatilityLookback := min 1 16 }).getLast?) := by
    rw [runTradingCycleWindows, if_neg (by omega)]
    rfl
  have hlabel : (if (probeBar 120000 30).close > (probeBar 60000 20).close
      then (1 : ℕ) else 0) = 1 := by
    rw [if_pos]
    show (20 : ℝ) < 30
    norm_num
  rw [hcycle, hfw]
  refine ⟨?_, by simp [cycleBars, probeBar], ?_, ?_⟩
  · rw [show ([windowAt cycleBars
        { windowSize := 1, normalizePerFeature := true,
          volatilityLookback := min 1 16 } 0,
       windowAt cycleBars
        { windowSize := 1, normalizePerFeature := true,
          volatilityLookback := min 1 16 } 1] : List FeatureWindow).getLast? =
      some (windowAt cycleBars
        { windowSize := 1, normalizePerFeature := true,
          volatilityLookback := min 1 16 } 1) from rfl, hw1]
    simp [cycleBars, probeBar]
  · rw [show ([windowAt cycleBars
        { windowSize := 1, normalizePerFeature := true,
          volatilityLookback := min 1 16 } 0,
       windowAt cycleBars
        { windowSize := 1, normalizePerFeature := true,
          volatilityLookback := min 1 16 } 1] : List FeatureWindow).getLast? =
      some (windowAt cycleBars
        { windowSize := 1, normalizePerFeature := true,
          volatilityLookback := min 1 16 } 1) from rfl, hw1]
    simpa using hlabel
  · rw [show ([windowAt cycleBars
        { windowSize := 1, normalizePerFeature := true,
          volatilityLookback := min 1 16 } 0,
       windowAt cycleBars
        { windowSize := 1, normalizePerFeature := true,
          volatilityLookback := min 1 16 } 1] : List FeatureWindow).getLast? =
      some (windowAt cycleBars
        { windowSize := 1, normalizePerFeature := true,
          volatilityLookback := min 1 16 } 1) from rfl, hw1]
    simp [cycleBars, probeBar]

/-- Sum of centered-and-scaled values. -/
theorem sum_map_sub_div (xs : List ℝ) (m s : ℝ) :
    (xs.map fun v => (v - m) / s).sum = (xs.sum - xs.length * m) / s := by
  induction xs with
  | nil => simp
  | cons x t ih =>
    rw [List.map_cons, List.sum_cons, ih, div_add_div_same, List.sum_cons,
      List.length_cons]
    congr 1
    push_cast
    ring

/-- Sum of pointwise quotients by a common denominator. -/
theorem sum_map_div (xs : List ℝ) (f : ℝ → ℝ) (c : ℝ) :
    (xs.map fun v => f v / c).sum = (xs.map f).sum / c := by
  induction xs with
  | nil => simp
  | cons x t ih =>
    rw [List.map_cons, List.sum_cons, ih, List.map_cons, List.sum_cons,
      div_add_div_same]

/-- Centering a nonempty list at its mean and scaling gives mean zero. -/
theorem colMean_centered (xs : List ℝ) (s : ℝ) (hxs : xs ≠ []) :
    colMean (xs.map fun v => (v - colMean xs) / s) = 0 := by
  have hn : (xs.length : ℝ) ≠ 0 := by
    have := List.length_pos.mpr hxs
    positivity
  rw [colMean, List.length_map, sum_map_sub_div, colMean,
    mul_div_cancel₀ _ hn, sub_self, zero_div, zero_div]

/-- The z-scored column of `normalizeWindow` has sample standard deviation
exactly one, provided the raw standard deviation is nonzero. -/
theorem sampleStdev_centered (xs : List ℝ) (hxs : xs ≠ [])
    (hs : sampleStdev xs ≠ 0) :
    sampleStdev (xs.map fun v => (v - colMean xs) / sampleStdev xs) = 1 := by
  set m := colMean xs with hm
  set s := sampleStdev xs with hsdef
  have hmean : colMean (xs.map fun v => (v - m) / s) = 0 :=
    colMean_centered xs s hxs
  rw [sampleStdev, hmean]
  have hmap : ((xs.map fun v => (v - m) / s).map fun x => (x - 0) ^ 2) =
      xs.map fun v => (v - m) ^ 2 / s ^ 2 := by
    rw [List.map_map]
    apply List.map_congr_left
    intro a _
    simp only [Function.comp_apply, sub_zero, div_pow]
  rw [hmap, sum_map_div, List.length_map]
  set S := (xs.map fun v => (v - m) ^ 2).sum with hS
  set D := max ((xs.length : ℝ) - 1) 1 with hD
  have hD0 : 0 < D := lt_max_of_lt_right one_pos
  have hS0 : 0 ≤ S := by
    apply List.sum_nonneg
    intro x hx
    obtain ⟨y, -, rfl⟩ := List.mem_map.mp hx
    positivity
  have hsq : s ^ 2 = S / D := by
    rw [hsdef, sampleStdev, ← hm, ← hS, ← hD]
    exact Real.sq_sqrt (div_nonneg hS0 hD0.le)
  rw [div_right_comm, ← hsq, div_self (pow_ne_zero 2 hs), Real.sqrt_one]

/-- The `means` entry at an in-range column is the column mean. -/
theorem windowColMeans_getD (M : List (List ℝ)) {c cols : ℕ} (hc : c < cols) :
    (windowColMeans M cols).getD c 0 = colMean (column M c) := by
  rw [windowColMeans, getD_map_range _ _ hc, colMean, column, List.length_map]

/-- The `stdevs` entry at an in-range column is the column sample standard
deviation. -/
theorem windowColStdevs_getD (M : List (List ℝ)) {c cols : ℕ} (hc : c < cols) :
    (windowColStdevs M cols).getD c 0 = sampleStdev (column M c) := by
  rw [windowColStdevs, getD_map_range _ _ hc, windowColMeans_getD M hc,
    sampleStdev, column, List.map_map, List.length_map]
  rfl

/-- `normalizeWindow` on a matrix with nonempty rows and a nonempty first
row, written without the branch guards. -/
theorem normalizeWindow_eq (M : List (List ℝ)) (hM : M ≠ [])
    (hhead : (M.headD []).length ≠ 0) :
    normalizeWindow M = M.map fun row =>
      (List.range row.length).map fun c =>
        if (windowColStdevs M (M.headD []).length).getD c 0 < 1 / 10 ^ 6 then 0
        else (row.getD c 0 - (windowColMeans M (M.headD []).length).getD c 0) /
          (windowColStdevs M (M.headD []).length).getD c 0 := by
  rw [normalizeWindow]
  rw [if_neg (by simpa using hM)]
  dsimp only
  rw [if_neg hhead]

/-- Columns of `normalizeWindow`: a column with raw sample standard deviation
below `1e-6` is zeroed; any other column is exactly z-scored, hence has mean
`0` and sample standard deviation `1`. -/
theorem normalizeWindow_column (M : List (List ℝ)) (n c : ℕ) (hM : M ≠ [])
    (hn : 0 < n) (hcols : ∀ r ∈ M, r.length = n) (hc : c < n) :
    (sampleStdev (column M c) < 1 / 10 ^ 6 →
      column (normalizeWindow M) c = List.replicate M.length 0)
    ∧ (1 / 10 ^ 6 ≤ sampleStdev (column M c) →
      colMean (column (normalizeWindow M) c) = 0 ∧
      sampleStdev (column (normalizeWindow M) c) = 1) := by
  have hhead : (M.headD []).length = n := by
    obtain ⟨r0, t, rfl⟩ := List.exists_cons_of_ne_nil hM
    exact hcols r0 (List.mem_cons_self r0 t)
  have hcol_ne : column M c ≠ [] := by
    rw [column]
    simpa using hM
  have key : column (normalizeWindow M) c =
      M.map fun row =>
        if sampleStdev (column M c) < 1 / 10 ^ 6 then 0
        else (row.getD c 0 - colMean (column M c)) / sampleStdev (column M c) := by
    rw [column, normalizeWindow_eq M hM (by omega), List.map_map]
    apply List.map_congr_left
    intro row hrow
    have hrl : row.length = n := hcols row hrow
    show ((List.range row.length).map _).getD c 0 = _
    rw [getD_map_range _ _ (by omega), hhead, windowColStdevs_getD M hc,
      windowColMeans_getD M hc]
  constructor
  · intro hsmall
    rw [key]
    have : (M.map fun row =>
        if sampleStdev (column M c) < 1 / 10 ^ 6 then (0 : ℝ)
        else (row.getD c 0 - colMean (column M c)) / sampleStdev (column M c)) =
        M.map fun _ => (0 : ℝ) := by
      apply List.map_congr_left
      intro row _
      rw [if_pos hsmall]
    rw [this, List.map_const']
  · intro hbig
    have hs0 : sampleStdev (column M c) ≠ 0 := by
      intro h0
      rw [h0] at hbig
      norm_num at hbig
    have hcolN : column (normalizeWindow M) c =
        (column M c).map fun v =>
          (v - colMean (column M c)) / sampleStdev (column M c) := by
      rw [key]
      conv_rhs => rw [column, List.map_map]
      apply List.map_congr_left
      intro row _
      rw [if_neg (not_lt.mpr hbig)]
      rfl
    rw [hcolN]
    exact ⟨colMean_centered _ _ hcol_ne, sampleStdev_centered _ hcol_ne hs0⟩

/-- Every row of a feature matrix has `FEATURE_COUNT` entries. -/
theorem featureMatrixAt_rows (bars : List (TradeBar ℝ))
    (volatilityLookback s windowSize : ℕ) (r : List ℝ)
    (hr : r ∈ featureMatrixAt bars volatilityLookback s windowSize) :
    r.length = FEATURE_COUNT := by
  rw [featureMatrixAt] at hr
  obtain ⟨offset, -, rfl⟩ := List.mem_map.mp hr
  exact buildFeatureVector_length bars (returnsOf bars) (s + offset)
    volatilityLookback (indicatorsOf bars volatilityLookback)

/-- C6: in every feature window built with normalization enabled, each
column either has raw sample standard deviation below `1e-6` within the
window and is entirely zero, or has mean exactly `0` and sample standard
deviation exactly `1` across the window's rows (both statistics over this
window's rows only). -/
theorem spec_c6 (bars : List (TradeBar ℝ))
    (windowSize volatilityLookback s c : ℕ) (h1 : 1 ≤ windowSize)
    (hs : s < bars.length - windowSize) (hc : c < FEATURE_COUNT) :
    (sampleStdev (column (featureMatrixAt bars volatilityLookback s
        windowSize) c) < 1 / 10 ^ 6 →
      column ((buildFeatureWindows bars
        { windowSize := windowSize
          normalizePerFeature := true
          volatilityLookback := volatilityLookback }).getD s
          emptyFeatureWindow).window c = List.replicate windowSize 0)
    ∧ (1 / 10 ^ 6 ≤ sampleStdev (column (featureMatrixAt bars
        volatilityLookback s windowSize) c) →
      colMean (column ((buildFeatureWindows bars
        { windowSize := windowSize
          normalizePerFeature := true
          volatilityLookback := volatilityLookback }).getD s
          emptyFeatureWindow).window c) = 0 ∧
      sampleStdev (column ((buildFeatureWindows bars
        { windowSize := windowSize
          normalizePerFeature := true
          volatilityLookback := volatilityLookback }).getD s
          emptyFeatureWindow).window c) = 1) := by
  have h2 : windowSize < bars.length := by omega
  have hMlen : (featureMatrixAt bars volatilityLookback s windowSize).length =
      windowSize := by
    rw [featureMatrixAt_length]
    simp only [List.length_take, List.length_drop]
    omega
  have hMne : featureMatrixAt bars volatilityLookback s windowSize ≠ [] := by
    intro h
    rw [h] at hMlen
    simp at hMlen
    omega
  have hwin : ((buildFeatureWindows bars
      { windowSize := windowSize
        normalizePerFeature := true
        volatilityLookback := volatilityLookback }).getD s
        emptyFeatureWindow).window =
      normalizeWindow (featureMatrixAt bars volatilityLookback s windowSize) := by
    have hc1 : s + windowSize - 1 < bars.length := by omega
    have hc2 : s + windowSize < bars.length := by omega
    rw [buildFeatureWindows_getD bars _ s h1 h2 hs,
      windowAt_fields bars _ s (bars.get ⟨_, hc1⟩) (bars.get ⟨_, hc2⟩)
        (List.getElem?_eq_getElem hc1) (List.getElem?_eq_getElem hc2)]
    rfl
  have hmain := normalizeWindow_column
    (featureMatrixAt bars volatilityLookback s windowSize) FEATURE_COUNT c
    hMne (by rw [FEATURE_COUNT]; omega)
    (featureMatrixAt_rows bars volatilityLookback s windowSize) hc
  rw [hMlen] at hmain
  rw [hwin]
  exact hmain

/-- C6 witness: the statement at two concrete bars, window size 1,
column 0. -/
theorem spec_c6_witness :
    (1 ≤ 1) ∧ 0 < pairBars.length - 1 ∧ 0 < FEATURE_COUNT ∧
    ((sampleStdev (column (featureMatrixAt pairBars 16 0 1) 0) < 1 / 10 ^ 6 →
      column ((buildFeatureWindows pairBars
        { windowSize := 1
          normalizePerFeature := true
          volatilityLookback := 16 }).getD 0
          emptyFeatureWindow).window 0 = List.replicate 1 0)
    ∧ (1 / 10 ^ 6 ≤ sampleStdev (column (featureMatrixAt pairBars 16 0 1) 0) →
      colMean (column ((buildFeatureWindows pairBars
        { windowSize := 1
          normalizePerFeature := true
          volatilityLookback := 16 }).getD 0
          emptyFeatureWindow).window 0) = 0 ∧
      sampleStdev (column ((buildFeatureWindows pairBars
        { windowSize := 1
          normalizePerFeature := true
          volatilityLookback := 16 }).getD 0
          emptyFeatureWindow).window 0) = 1)) :=
  ⟨le_rfl, by simp [pairBars], by rw [FEATURE_COUNT]; omega,
    spec_c6 pairBars 1 16 0 0 le_rfl (by simp [pairBars])
      (by rw [FEATURE_COUNT]; omega)⟩

section RsiLemmas

variable {α : Type} [LinearOrderedField α]

/-- Unfolding one iteration of the RSI fold. -/
theorem rsiFoldState_succ (values : List α) (period : ℕ)
    (init : (α × α) × List α) (k : ℕ) :
    rsiFoldState values period init (k + 1) =
      rsiFoldStep values period (rsiFoldState values period init k)
        (period + 1 + k) := by
  rw [rsiFoldState, rsiFoldState, List.range'_concat, List.foldl_append,
    List.foldl_cons, List.foldl_nil, one_mul]

/-- The RSI fold never changes the length of the result list. -/
theorem rsiFoldState_length (values : List α) (period : ℕ)
    (init : (α × α) × List α) (k : ℕ) :
    (rsiFoldState values period init k).2.length = init.2.length := by
  induction k with
  | zero => rfl
  | succ k ih =>
    rw [rsiFoldState_succ, rsiFoldStep]
    dsimp only
    rw [List.length_set, ih]

/-- Entries outside the fold's write range are untouched. -/
theorem rsiFoldState_getD_untouched (values : List α) (period : ℕ)
    (init : (α × α) × List α) (dflt : α) (k j : ℕ)
    (h : j < period + 1 ∨ period + 1 + k ≤ j) :
    (rsiFoldState values period init k).2.getD j dflt =
      init.2.getD j dflt := by
  induction k with
  | zero => rfl
  | succ k ih =>
    rw [rsiFoldState_succ, rsiFoldStep]
    dsimp only
    rw [List.getD_eq_getElem?_getD, List.getElem?_set_ne (by omega),
      ← List.getD_eq_getElem?_getD]
    exact ih (by omega)

/-- Entries inside the fold's write range hold the RSI value computed from
the Wilder averages reached at their index. -/
theorem rsiFoldState_getD_written (values : List α) (period : ℕ)
    (init : (α × α) × List α) (dflt : α) (k j : ℕ)
    (h1 : period + 1 ≤ j) (h2 : j < period + 1 + k)
    (h3 : j < init.2.length) :
    (rsiFoldState values period init k).2.getD j dflt =
      rsiExpr (rsValue (rsiFoldState values period init (j - period)).1.1
        (rsiFoldState values period init (j - period)).1.2) := by
  induction k with
  | zero => omega
  | succ k ih =>
    rw [rsiFoldState_succ, rsiFoldStep]
    dsimp only
    by_cases hj : j = period + 1 + k
    · subst hj
      rw [List.getD_eq_getElem?_getD,
        List.getElem?_set_self (by rw [rsiFoldState_length]; omega),
        Option.getD_some, show period + 1 + k - period = k + 1 from by omega,
        rsiFoldState_succ, rsiFoldStep]
    · rw [List.getD_eq_getElem?_getD, List.getElem?_set_ne (by omega),
        ← List.getD_eq_getElem?_getD]
      exact ih (by omega)

/-- The gain branch of the loop equals the `max` form. -/
theorem gain_if_eq_max (d : α) : (if d > 0 then d else 0) = max d 0 := by
  rcases le_or_lt d 0 with h | h
  · rw [if_neg (not_lt.mpr h), max_eq_right h]
  · rw [if_pos h, max_eq_left h.le]

/-- The loss branch of the loop equals the `max` form. -/
theorem loss_if_eq_max (d : α) : (if d < 0 then -d else 0) = max (-d) 0 := by
  rcases le_or_lt d 0 with h | h
  · rcases eq_or_lt_of_le h with rfl | h'
    · simp
    · rw [if_pos h', max_eq_left (by simpa using h'.le)]
  · rw [if_neg (not_lt.mpr h.le), max_eq_right (by simpa using h.le)]

/-- The seed gain branch equals the `max` form. -/
theorem seed_gain_if_eq_max (d : α) : (if d ≥ 0 then d else 0) = max d 0 := by
  rcases le_or_lt 0 d with h | h
  · rw [if_pos h, max_eq_left h]
  · rw [if_neg (not_le.mpr h), max_eq_right h.le]

/-- The seed loss branch equals the `max` form. -/
theorem seed_loss_if_eq_max (d : α) : (if d ≥ 0 then 0 else -d) = max (-d) 0 := by
  rcases le_or_lt 0 d with h | h
  · rw [if_pos h, max_eq_right (by simpa using h)]
  · rw [if_neg (not_le.mpr h), max_eq_left (by simpa using h.le)]

/-- The fold's average component follows the spec's Wilder recursion when
seeded with the spec's seed averages. -/
theorem rsiFoldState_fst (values : List α) (period : ℕ) (l0 : List α)
    (k : ℕ) :
    (rsiFoldState values period (specSeedAvg values period, l0) k).1 =
      specWilderAvg values period k := by
  induction k with
  | zero => rfl
  | succ k ih =>
    rw [rsiFoldState_succ, rsiFoldStep]
    dsimp only
    rw [ih, specWilderAvg, wilderStep]
    rw [gain_if_eq_max, loss_if_eq_max,
      show period + 1 + k = period + k + 1 from by omega]

/-- `computeRSI` on sufficient data, written through the spec seed and the
named fold. -/
theorem computeRSI_eq_fold (values : List α) (period : ℕ)
    (hp1 : 1 ≤ period) (hp : period < values.length)
    (h2 : 2 ≤ values.length) :
    computeRSI values period =
      (rsiFoldState values period
        (specSeedAvg values period,
          (List.replicate values.length ((1 : α) / 2)).set period
            (rsiExpr (rsValue (specSeedAvg values period).1
              (specSeedAvg values period).2)))
        (values.length - (period + 1))).2 := by
  simp only [computeRSI]
  rw [if_neg (by omega : ¬values.length < 2), if_pos hp,
    min_eq_left (by omega : period ≤ values.length - 1)]
  have hg : ((List.range' 1 period).map fun i =>
      if getValue values i - getValue values (i - 1) ≥ 0 then
        getValue values i - getValue values (i - 1) else 0).sum =
      ((List.range' 1 period).map fun i =>
        max (getValue values i - getValue values (i - 1)) 0).sum := by
    apply congrArg
    apply List.map_congr_left
    intro i _
    exact seed_gain_if_eq_max _
  have hl : ((List.range' 1 period).map fun i =>
      if getValue values i - getValue values (i - 1) ≥ 0 then 0
      else -(getValue values i - getValue values (i - 1))).sum =
      ((List.range' 1 period).map fun i =>
        max (-(getValue values i - getValue values (i - 1))) 0).sum := by
    apply congrArg
    apply List.map_congr_left
    intro i _
    exact seed_loss_if_eq_max _
  rw [hg, hl]
  rfl

/-- The spec's Wilder averages are always nonnegative. -/
theorem specWilderAvg_nonneg (values : List α) (period : ℕ)
    (hp : 1 ≤ period) (k : ℕ) :
    0 ≤ (specWilderAvg values period k).1 ∧
    0 ≤ (specWilderAvg values period k).2 := by
  induction k with
  | zero =>
    constructor <;>
    · apply div_nonneg _ (Nat.cast_nonneg period)
      apply List.sum_nonneg
      intro x hx
      obtain ⟨i, -, rfl⟩ := List.mem_map.mp hx
      exact le_max_right _ 0
  | succ k ih =>
    have hpa : (0 : α) ≤ (period : α) - 1 := by
      have : (1 : α) ≤ (period : α) := by exact_mod_cast hp
      linarith
    constructor <;>
    · apply div_nonneg _ (Nat.cast_nonneg period)
      apply add_nonneg (mul_nonneg (by tauto) hpa) (le_max_right _ 0)

/-- `rs` is nonnegative for nonnegative averages. -/
theorem rsValue_nonneg (g l : α) (hg : 0 ≤ g) (hl : 0 ≤ l) :
    0 ≤ rsValue g l := by
  rw [rsValue]
  split
  · norm_num
  · exact div_nonneg hg hl

/-- The IEEE form `1/(1 + 1/rs)` (with `rs = 0 ⇒ 0`) equals the spec form
`1 - 1/(1 + rs)` for nonnegative `rs`. -/
theorem rsiExpr_eq_spec (rs : α) (h : 0 ≤ rs) :
    rsiExpr rs = 1 - 1 / (1 + rs) := by
  rcases eq_or_lt_of_le h with rfl | hpos
  · rw [rsiExpr, if_pos rfl]
    norm_num
  · have hrs : rs ≠ 0 := ne_of_gt hpos
    have h1 : (1 : α) + rs ≠ 0 := by positivity
    rw [rsiExpr, if_neg hrs]
    have e1 : (1 : α) + 1 / rs = (rs + 1) / rs := by
      rw [add_div, div_self hrs]
    have e2 : (1 : α) - 1 / (1 + rs) = rs / (1 + rs) := by
      rw [eq_div_iff h1, sub_mul, one_mul, div_mul_cancel₀ _ h1]
      ring
    rw [e1, one_div_div, e2, add_comm rs 1]

/-- C8: `computeRSI` equals the spec's reference RSI — simple-average seed
over the first `period` deltas, Wilder smoothing afterwards,
`RSI = 1 - 1/(1+RS)` with `RS = avgGain/avgLoss` (`avgLoss = 0 ⇒ RS = 100`),
and the default `0.5` at every index before the first defined value. -/
theorem spec_c8 {α : Type} [LinearOrderedField α] (values : List α)
    (period j : ℕ) (hp : 1 ≤ period) (hj : j < values.length) :
    (computeRSI values period).getD j (1 / 2) = specRSI values period j := by
  by_cases hlen : values.length < 2
  · rw [computeRSI, if_pos hlen, specRSI, if_pos (Or.inl hlen),
      List.getD_eq_getElem?_getD, List.getElem?_replicate, if_pos hj,
      Option.getD_some]
  · push_neg at hlen
    by_cases hpl : period < values.length
    · by_cases hjp : j < period
      · rw [specRSI, if_pos (Or.inr hjp),
          computeRSI_eq_fold values period hp hpl hlen,
          rsiFoldState_getD_untouched values period _ _ _ _
            (Or.inl (by omega)),
          List.getD_eq_getElem?_getD, List.getElem?_set_ne (by omega),
          List.getElem?_replicate, if_pos hj, Option.getD_some]
      · push_neg at hjp
        have hnonneg := specWilderAvg_nonneg values period hp (j - period)
        have hrs := rsValue_nonneg _ _ hnonneg.1 hnonneg.2
        rw [specRSI, if_neg (by omega),
          computeRSI_eq_fold values period hp hpl hlen,
          ← rsiExpr_eq_spec _ hrs]
        by_cases hje : j = period
        · subst hje
          rw [rsiFoldState_getD_untouched values j _ _ _ _
              (Or.inl (by omega)),
            List.getD_eq_getElem?_getD,
            List.getElem?_set_self (by rw [List.length_replicate]; omega),
            Option.getD_some, Nat.sub_self]
          rfl
        · rw [rsiFoldState_getD_written values period _ _ _ _ (by omega)
              (by omega)
              (by rw [List.length_set, List.length_replicate]; omega),
            rsiFoldState_fst]
    · have hjp : j < period := by omega
      rw [specRSI, if_pos (Or.inr hjp)]
      simp only [computeRSI]
      rw [if_neg (by omega : ¬values.length < 2), if_neg hpl,
        show values.length - (period + 1) = 0 from by omega,
        List.range'_zero, List.foldl_nil, List.getD_eq_getElem?_getD,
        List.getElem?_replicate, if_pos hj, Option.getD_some]

end RsiLemmas

/-- C8 witness: the theorem at a concrete rational series, checking the
seeded index and a Wilder-smoothed index. -/
theorem spec_c8_witness :
    ((1 : ℕ) ≤ 1 ∧ (1 : ℕ) < 3 ∧
      (computeRSI [(1 : ℚ), 3, 2] 1).getD 1 (1 / 2) = specRSI [(1 : ℚ), 3, 2] 1 1)
    ∧ ((1 : ℕ) ≤ 1 ∧ (2 : ℕ) < 3 ∧
      (computeRSI [(1 : ℚ), 3, 2] 1).getD 2 (1 / 2) = specRSI [(1 : ℚ), 3, 2] 1 2) :=
  ⟨⟨le_rfl, by omega, spec_c8 [(1 : ℚ), 3, 2] 1 1 le_rfl (by simp)⟩,
   ⟨le_rfl, by omega, spec_c8 [(1 : ℚ), 3, 2] 1 2 le_rfl (by simp)⟩⟩

/-- Membership in `insertByTime`. -/
theorem mem_insertByTime {u t : KucoinTrade} {s : List KucoinTrade} :
    u ∈ insertByTime t s ↔ u = t ∨ u ∈ s := by
  induction s with
  | nil => simp [insertByTime]
  | cons v rest ih =>
    rw [insertByTime]
    split
    · simp [List.mem_cons]
    · simp [List.mem_cons, ih]
      tauto

/-- Inserting into a time-sorted list keeps it time-sorted. -/
theorem insertByTime_pairwise {t : KucoinTrade} {s : List KucoinTrade}
    (hs : s.Pairwise fun a b => a.time ≤ b.time) :
    (insertByTime t s).Pairwise fun a b => a.time ≤ b.time := by
  induction s with
  | nil => simp [insertByTime]
  | cons v rest ih =>
    rw [insertByTime]
    rw [List.pairwise_cons] at hs
    split
    · rename_i hle
      rw [List.pairwise_cons]
      refine ⟨?_, List.pairwise_cons.mpr hs⟩
      intro u hu
      rcases List.mem_cons.mp hu with rfl | hu'
      · exact hle
      · exact le_trans hle (hs.1 u hu')
    · rename_i hgt
      push_neg at hgt
      rw [List.pairwise_cons]
      refine ⟨?_, ih hs.2⟩
      intro u hu
      rcases mem_insertByTime.mp hu with rfl | hu'
      · exact hgt.le
      · exact hs.1 u hu'

/-- `insertByTime` is a permutation of consing. -/
theorem insertByTime_perm (t : KucoinTrade) (s : List KucoinTrade) :
    List.Perm (insertByTime t s) (t :: s) := by
  induction s with
  | nil => exact List.Perm.refl _
  | cons v rest ih =>
    rw [insertByTime]
    split
    · exact List.Perm.refl _
    · exact List.Perm.trans (List.Perm.cons v ih) (List.Perm.swap t v rest)

/-- The sort is ascending in time. -/
theorem sortByTime_pairwise (l : List KucoinTrade) :
    (sortByTime l).Pairwise fun a b => a.time ≤ b.time := by
  induction l with
  | nil => simp [sortByTime]
  | cons x xs ih => exact insertByTime_pairwise ih

/-- The sort permutes its input. -/
theorem sortByTime_perm (l : List KucoinTrade) :
    List.Perm (sortByTime l) l := by
  induction l with
  | nil => exact List.Perm.refl _
  | cons x xs ih =>
    exact List.Perm.trans (insertByTime_perm x (sortByTime xs))
      (List.Perm.cons x ih)

/-- `insertByTime` places the new trade before every equal-time trade
already in the list (it only walks past strictly earlier trades). -/
theorem filter_insertByTime (t : KucoinTrade) (s : List KucoinTrade) (τ : ℕ) :
    (insertByTime t s).filter (fun u => u.time = τ) =
      if t.time = τ then t :: s.filter (fun u => u.time = τ)
      else s.filter (fun u => u.time = τ) := by
  induction s with
  | nil =>
    rw [insertByTime]
    by_cases h : t.time = τ <;> simp [List.filter_cons, h]
  | cons v rest ih =>
    rw [insertByTime]
    split
    · by_cases h : t.time = τ <;> by_cases h2 : v.time = τ <;>
        simp [List.filter_cons, h, h2]
    · rename_i hgt
      push_neg at hgt
      rw [List.filter_cons, ih, List.filter_cons]
      by_cases h : t.time = τ <;> by_cases h2 : v.time = τ <;>
        simp [h, h2] <;> omega

/-- Stability of the sort: for every timestamp, the trades at that
timestamp appear in the sorted list in their original input order. -/
theorem sortByTime_filter (l : List KucoinTrade) (τ : ℕ) :
    (sortByTime l).filter (fun u => u.time = τ) =
      l.filter (fun u => u.time = τ) := by
  induction l with
  | nil => rfl
  | cons x xs ih =>
    calc (sortByTime (x :: xs)).filter (fun u => u.time = τ)
        = (insertByTime x (sortByTime xs)).filter (fun u => u.time = τ) := rfl
      _ = if x.time = τ then x :: (sortByTime xs).filter (fun u => u.time = τ)
          else (sortByTime xs).filter (fun u => u.time = τ) :=
        filter_insertByTime x _ τ
      _ = (x :: xs).filter (fun u => u.time = τ) := by
        rw [ih, List.filter_cons]
        by_cases h : x.time = τ <;> simp [h]

/-- A bucket start is at most the timestamp. -/
theorem floorToInterval_le (t i : ℕ) : floorToInterval t i ≤ t :=
  Nat.div_mul_le_self t i

/-- A timestamp lies strictly before the end of its bucket. -/
theorem lt_floorToInterval_add (t i : ℕ) (hi : 0 < i) :
    t < floorToInterval t i + i := by
  rw [floorToInterval, Nat.mul_comm]
  have h1 := Nat.div_add_mod t i
  have h2 := Nat.mod_lt t hi
  omega

/-- Bucket starts are aligned to the interval. -/
theorem floorToInterval_mod (t i : ℕ) : floorToInterval t i % i = 0 :=
  Nat.mul_mod_left _ _

/-- An aligned value is its own bucket start. -/
theorem floorToInterval_self (b i : ℕ) (hb : b % i = 0) :
    floorToInterval b i = b := by
  rw [floorToInterval, Nat.div_mul_cancel (Nat.dvd_of_mod_eq_zero hb)]

/-- A timestamp in the aligned window `[b, b+i)` has bucket start `b`. -/
theorem floorToInterval_eq_of (b t i : ℕ) (hi : 0 < i) (hb : b % i = 0)
    (h1 : b ≤ t) (h2 : t < b + i) : floorToInterval t i = b := by
  obtain ⟨k, rfl⟩ := Nat.dvd_of_mod_eq_zero hb
  rw [floorToInterval, Nat.div_eq_of_lt_le (by rw [Nat.mul_comm]; exact h1)
    (by rw [Nat.succ_mul, Nat.mul_comm]; omega)]
  exact Nat.mul_comm k i

/-- Bucket starts are monotone in the timestamp. -/
theorem floorToInterval_mono (t u i : ℕ) (h : t ≤ u) :
    floorToInterval t i ≤ floorToInterval u i :=
  Nat.mul_le_mul_right i (Nat.div_le_div_right h)

/-- The while loop does nothing when the trade fits the current bucket. -/
theorem advanceBuckets_of_lt (i t bs be : ℕ)
    (acc : Option MutableBarAccumulator) (bars : List (TradeBar ℚ))
    (h : t < be) :
    advanceBuckets i t bs be acc bars = (bs, be, acc, bars) := by
  rw [advanceBuckets, dif_neg (by omega)]

/-- With no open accumulator, the while loop advances the aligned bucket
boundaries until the trade fits and changes nothing else. -/
theorem advanceBuckets_none (i t : ℕ) (hi : 0 < i) :
    ∀ (n bs be : ℕ) (bars : List (TradeBar ℚ)), t + 1 - be ≤ n →
      be % i = 0 → be ≤ t →
      advanceBuckets i t bs be none bars =
        (floorToInterval t i, floorToInterval t i + i, none, bars) := by
  intro n
  induction n with
  | zero => intro bs be bars hn _ hle; omega
  | succ n ih =>
    intro bs be bars hn hmod hle
    rw [advanceBuckets, dif_pos ⟨hi, hle⟩,
      show bars ++ flushList none = bars from by simp [flushList]]
    by_cases h2 : be + i ≤ t
    · exact ih be (be + i) bars (by omega)
        (by rw [Nat.add_mod_right]; exact hmod) h2
    · rw [advanceBuckets_of_lt _ _ _ _ _ _ (by omega),
        floorToInterval_eq_of be t i hi hmod hle (by omega)]

/-- With an open accumulator and a trade at or past the bucket end, the
while loop flushes exactly one bar and realigns the bucket to the trade. -/
theorem advanceBuckets_flush (i t bs be : ℕ) (a : MutableBarAccumulator)
    (bars : List (TradeBar ℚ)) (hi : 0 < i) (hmod : be % i = 0)
    (hle : be ≤ t) :
    advanceBuckets i t bs be (some a) bars =
      (floorToInterval t i, floorToInterval t i + i, none,
        bars ++ [finalizeAccumulator a]) := by
  rw [advanceBuckets, dif_pos ⟨hi, hle⟩,
    show flushList (some a) = [finalizeAccumulator a] from rfl]
  by_cases h2 : be + i ≤ t
  · exact advanceBuckets_none i t hi (t + 1 - (be + i)) be (be + i) _ le_rfl
      (by rw [Nat.add_mod_right]; exact hmod) h2
  · rw [advanceBuckets_of_lt _ _ _ _ _ _ (by omega),
      floorToInterval_eq_of be t i hi hmod hle (by omega)]

/-- The aggregator loop on a time-sorted tail, started with an open aligned
accumulator, produces exactly the bucket runs of `runsFrom`. -/
theorem processTrades_eq_runsFrom (i : ℕ) (hi : 0 < i) :
    ∀ (rest : List KucoinTrade) (a : MutableBarAccumulator)
      (bars : List (TradeBar ℚ)),
      a.startTime % i = 0 →
      (∀ u ∈ rest, a.startTime ≤ u.time) →
      rest.Pairwise (fun u v => u.time ≤ v.time) →
      processTrades i rest a.startTime (a.startTime + i) (some a) bars =
        bars ++ runsFrom i a rest := by
  intro rest
  induction rest with
  | nil =>
    intro a bars _ _ _
    rw [processTrades, runsFrom]
    rfl
  | cons t rest ih =>
    intro a bars hmod hge hpw
    rw [List.pairwise_cons] at hpw
    rw [processTrades]
    by_cases ht : t.time < a.startTime + i
    · rw [advanceBuckets_of_lt _ _ _ _ _ _ ht]
      dsimp only
      have hmerge := ih (mergeTrade a t) bars hmod
        (fun u hu => hge u (List.mem_cons_of_mem t hu)) hpw.2
      rw [show (mergeTrade a t).startTime = a.startTime from rfl] at hmerge
      rw [hmerge, runsFrom, if_pos ht]
    · push_neg at ht
      rw [advanceBuckets_flush i t.time _ _ a bars hi
        (by rw [Nat.add_mod_right]; exact hmod) ht]
      dsimp only
      have hB : ∀ u ∈ rest, floorToInterval t.time i ≤ u.time := fun u hu =>
        le_trans (floorToInterval_le t.time i) (hpw.1 u hu)
      have hcreate := ih (createAccumulator (floorToInterval t.time i)
          (floorToInterval t.time i + i) t) (bars ++ [finalizeAccumulator a])
        (floorToInterval_mod t.time i) hB hpw.2
      rw [show (createAccumulator (floorToInterval t.time i)
          (floorToInterval t.time i + i) t).startTime =
          floorToInterval t.time i from rfl] at hcreate
      rw [hcreate, runsFrom, if_neg (by omega),
        List.append_assoc, List.singleton_append]
      rfl

/-- `buildBarsFromTrades` without truncation equals the bucket runs of the
sorted trades, seeded with the first sorted trade's bucket. -/
theorem buildBarsFromTrades_eq_runsFrom (trades : List KucoinTrade) (i : ℕ)
    (hi : 0 < i) (f : KucoinTrade) (rest : List KucoinTrade)
    (hsort : sortByTime trades = f :: rest) :
    buildBarsFromTrades trades i none =
      runsFrom i (createAccumulator (floorToInterval f.time i)
        (floorToInterval f.time i + i) f) rest := by
  have hpw := sortByTime_pairwise trades
  rw [hsort, List.pairwise_cons] at hpw
  rw [buildBarsFromTrades, hsort]
  dsimp only
  rw [processTrades,
    advanceBuckets_of_lt _ _ _ _ _ _ (lt_floorToInterval_add f.time i hi)]
  dsimp only
  have hmain := processTrades_eq_runsFrom i hi rest
    (createAccumulator (floorToInterval f.time i)
      (floorToInterval f.time i + i) f) []
    (floorToInterval_mod f.time i)
    (fun u hu => le_trans (floorToInterval_le f.time i) (hpw.1 u hu))
    hpw.2
  rw [show (createAccumulator (floorToInterval f.time i)
      (floorToInterval f.time i + i) f).startTime =
      floorToInterval f.time i from rfl] at hmain
  rw [hmain, List.nil_append]

/-- The `maxBars` truncation is a pure post-processing step: a positive
bound smaller than the bar count keeps the most recent `maxBars` bars,
anything else returns all bars. -/
theorem buildBarsFromTrades_maxBars (trades : List KucoinTrade) (i m : ℕ) :
    buildBarsFromTrades trades i (some m) =
      if 0 < m ∧ m < (buildBarsFromTrades trades i none).length
      then (buildBarsFromTrades trades i none).drop
        ((buildBarsFromTrades trades i none).length - m)
      else buildBarsFromTrades trades i none := by
  rw [buildBarsFromTrades, buildBarsFromTrades]
  cases hsort : sortByTime trades with
  | nil => simp
  | cons f rest => rfl

/-- `runStarts` always begins with the current run value. -/
theorem runStarts_head? (b : ℕ) (l : List ℕ) :
    (runStarts b l).head? = some b := by
  induction l generalizing b with
  | nil => rfl
  | cons x xs ih =>
    rw [runStarts]
    split
    · exact ih b
    · rfl

/-- Over a monotone bucket list, the run starts are strictly increasing. -/
theorem runStarts_chain (b : ℕ) (l : List ℕ)
    (h : List.Chain' (· ≤ ·) (b :: l)) :
    List.Chain' (· < ·) (runStarts b l) := by
  induction l generalizing b with
  | nil => simp [runStarts]
  | cons x xs ih =>
    obtain ⟨hbx, hx⟩ := List.chain'_cons.mp h
    rw [runStarts]
    split
    · rename_i heq
      subst heq
      exact ih x hx
    · rename_i hne
      rw [List.chain'_cons']
      refine ⟨?_, ih x hx⟩
      intro y hy
      rw [runStarts_head? x xs] at hy
      rw [Option.mem_def, Option.some_inj] at hy
      subst hy
      exact lt_of_le_of_ne hbx fun he => hne he.symm

/-- The set of run starts is the current value plus the listed values. -/
theorem runStarts_toFinset (b : ℕ) (l : List ℕ) :
    (runStarts b l).toFinset = insert b l.toFinset := by
  induction l generalizing b with
  | nil => simp [runStarts]
  | cons x xs ih =>
    rw [runStarts]
    split
    · rename_i heq
      subst heq
      rw [ih, List.toFinset_cons, Finset.insert_idem]
    · rw [List.toFinset_cons, ih, List.toFinset_cons]

/-- Permuted lists have the same `toFinset`. -/
theorem toFinset_eq_of_perm {l l' : List ℕ} (h : List.Perm l l') :
    l.toFinset = l'.toFinset := by
  ext x
  simp only [List.mem_toFinset]
  exact h.mem_iff

/-- The bars cut by `runsFrom` start exactly at the run starts of the
bucket sequence. -/
theorem runsFrom_startTimes (i : ℕ) (hi : 0 < i) :
    ∀ (rest : List KucoinTrade) (a : MutableBarAccumulator),
      a.startTime % i = 0 →
      (∀ u ∈ rest, a.startTime ≤ u.time) →
      rest.Pairwise (fun u v => u.time ≤ v.time) →
      (runsFrom i a rest).map (fun bar => bar.startTime) =
        runStarts a.startTime (rest.map (bucketOf i)) := by
  intro rest
  induction rest with
  | nil => intro a _ _ _; rfl
  | cons t rest ih =>
    intro a hmod hge hpw
    rw [List.pairwise_cons] at hpw
    rw [runsFrom]
    by_cases ht : t.time < a.startTime + i
    · rw [if_pos ht]
      have hrec := ih (mergeTrade a t) hmod
        (fun u hu => hge u (List.mem_cons_of_mem t hu)) hpw.2
      rw [show (mergeTrade a t).startTime = a.startTime from rfl] at hrec
      rw [hrec, List.map_cons, runStarts,
        if_pos (show bucketOf i t = a.startTime from
          floorToInterval_eq_of a.startTime t.time i hi hmod
            (hge t (List.mem_cons_self t rest)) ht)]
    · push_neg at ht
      have hBge : a.startTime + i ≤ bucketOf i t := by
        have hm := floorToInterval_mono (a.startTime + i) t.time i ht
        rw [floorToInterval_self (a.startTime + i) i
          (by rw [Nat.add_mod_right]; exact hmod)] at hm
        exact hm
      rw [if_neg (not_lt.mpr ht), List.map_cons, List.map_cons, runStarts,
        if_neg (by omega : ¬bucketOf i t = a.startTime)]
      have hrec := ih (createAccumulator (bucketOf i t) (bucketOf i t + i) t)
        (floorToInterval_mod t.time i)
        (fun u hu => le_trans (floorToInterval_le t.time i) (hpw.1 u hu))
        hpw.2
      rw [show (createAccumulator (bucketOf i t) (bucketOf i t + i)
        t).startTime = bucketOf i t from rfl] at hrec
      rw [hrec]
      rfl

/-- C4 (amended): for a nonempty trade list and positive interval, the
untruncated aggregator output is strictly increasing in start time, its
start times are exactly the occupied buckets (no synthetic bars), and its
length is the number K of distinct occupied buckets; a `maxBars` bound
truncates to the most recent `maxBars` bars only when it is positive and
smaller than the bar count (JS falsiness treats an explicit `0` as absent). -/
theorem spec_c4 (trades : List KucoinTrade) (intervalMs m : ℕ)
    (h1 : 0 < intervalMs) (h2 : trades ≠ []) :
    List.Chain' (fun p q : TradeBar ℚ => p.startTime < q.startTime)
      (buildBarsFromTrades trades intervalMs none)
    ∧ ((buildBarsFromTrades trades intervalMs none).map
        (fun bar => bar.startTime)).toFinset =
      (trades.map fun t => floorToInterval t.time intervalMs).toFinset
    ∧ (buildBarsFromTrades trades intervalMs none).length =
      (trades.map fun t => floorToInterval t.time intervalMs).toFinset.card
    ∧ buildBarsFromTrades trades intervalMs (some m) =
      (if 0 < m ∧ m < (buildBarsFromTrades trades intervalMs none).length
       then (buildBarsFromTrades trades intervalMs none).drop
         ((buildBarsFromTrades trades intervalMs none).length - m)
       else buildBarsFromTrades trades intervalMs none) := by
  cases hsort : sortByTime trades with
  | nil =>
    exfalso
    have hp := sortByTime_perm trades
    rw [hsort] at hp
    exact h2 hp.nil_eq.symm
  | cons f rest =>
    have hpw := sortByTime_pairwise trades
    rw [hsort, List.pairwise_cons] at hpw
    have hrw := buildBarsFromTrades_eq_runsFrom trades intervalMs h1 f rest
      hsort
    have hmap : (buildBarsFromTrades trades intervalMs none).map
        (fun bar => bar.startTime) =
        runStarts (floorToInterval f.time intervalMs)
          (rest.map (bucketOf intervalMs)) := by
      rw [hrw]
      have := runsFrom_startTimes intervalMs h1 rest
        (createAccumulator (floorToInterval f.time intervalMs)
          (floorToInterval f.time intervalMs + intervalMs) f)
        (floorToInterval_mod f.time intervalMs)
        (fun u hu => le_trans (floorToInterval_le f.time intervalMs)
          (hpw.1 u hu))
        hpw.2
      rw [show (createAccumulator (floorToInterval f.time intervalMs)
        (floorToInterval f.time intervalMs + intervalMs) f).startTime =
        floorToInterval f.time intervalMs from rfl] at this
      exact this
    have hchainle : List.Chain' (· ≤ ·)
        (floorToInterval f.time intervalMs :: rest.map (bucketOf intervalMs)) := by
      have hmapeq : floorToInterval f.time intervalMs ::
          rest.map (bucketOf intervalMs) =
          (f :: rest).map (bucketOf intervalMs) := rfl
      rw [hmapeq, List.chain'_iff_pairwise]
      have hsp := sortByTime_pairwise trades
      rw [hsort] at hsp
      exact hsp.map (bucketOf intervalMs)
        (fun a b hab => floorToInterval_mono a.time b.time intervalMs hab)
    have hchain : List.Chain' (· < ·)
        ((buildBarsFromTrades trades intervalMs none).map
          (fun bar => bar.startTime)) := by
      rw [hmap]
      exact runStarts_chain _ _ hchainle
    have hfin : ((buildBarsFromTrades trades intervalMs none).map
        (fun bar => bar.startTime)).toFinset =
        (trades.map fun t => floorToInterval t.time intervalMs).toFinset := by
      rw [hmap, runStarts_toFinset, ← List.toFinset_cons,
        show floorToInterval f.time intervalMs ::
          rest.map (bucketOf intervalMs) =
          (f :: rest).map (bucketOf intervalMs) from rfl, ← hsort]
      exact toFinset_eq_of_perm ((sortByTime_perm trades).map _)
    refine ⟨(List.chain'_map _).mp hchain, hfin, ?_,
      buildBarsFromTrades_maxBars trades intervalMs m⟩
    have hnodup : ((buildBarsFromTrades trades intervalMs none).map
        (fun bar => bar.startTime)).Nodup := by
      have := (List.chain'_iff_pairwise.mp hchain).imp
        (fun hab => ne_of_lt hab)
      exact this
    rw [← hfin, List.toFinset_card_of_nodup hnodup, List.length_map]

/-- C4 witness: two trades in distinct minute buckets, truncated to one bar. -/
theorem spec_c4_witness :
    (0 < 60000) ∧ ([tradeA, tradeE] ≠ []) ∧
    (List.Chain' (fun p q : TradeBar ℚ => p.startTime < q.startTime)
      (buildBarsFromTrades [tradeA, tradeE] 60000 none)
    ∧ ((buildBarsFromTrades [tradeA, tradeE] 60000 none).map
        (fun bar => bar.startTime)).toFinset =
      ([tradeA, tradeE].map fun t => floorToInterval t.time 60000).toFinset
    ∧ (buildBarsFromTrades [tradeA, tradeE] 60000 none).length =
      ([tradeA, tradeE].map fun t => floorToInterval t.time 60000).toFinset.card
    ∧ buildBarsFromTrades [tradeA, tradeE] 60000 (some 1) =
      (if 0 < 1 ∧ 1 < (buildBarsFromTrades [tradeA, tradeE] 60000 none).length
       then (buildBarsFromTrades [tradeA, tradeE] 60000 none).drop
         ((buildBarsFromTrades [tradeA, tradeE] 60000 none).length - 1)
       else buildBarsFromTrades [tradeA, tradeE] 60000 none)) :=
  ⟨by norm_num, by simp,
    spec_c4 [tradeA, tradeE] 60000 1 (by norm_num) (by simp)⟩

/-- C4 counterexample: with `maxBars = 0` explicitly given and one bar
produced, the claim demands the most recent `0` bars (an empty result), but
the JS falsiness guard `if (maxBars && ...)` skips truncation and returns
the bar. -/
theorem spec_c4_counterexample :
    (buildBarsFromTrades [tradeA] 60000 none).length = 1 ∧
    buildBarsFromTrades [tradeA] 60000 (some 0) =
      buildBarsFromTrades [tradeA] 60000 none ∧
    buildBarsFromTrades [tradeA] 60000 (some 0) ≠ [] := by
  have hrw := buildBarsFromTrades_eq_runsFrom [tradeA] 60000 (by norm_num)
    tradeA [] rfl
  have hmax := buildBarsFromTrades_maxBars [tradeA] 60000 0
  refine ⟨by rw [hrw]; rfl, by rw [hmax, if_neg (by omega)], ?_⟩
  rw [hmax, if_neg (by omega), hrw]
  simp [runsFrom]

/-- Rounding to 8 decimals moves a value by at most half a step in either
direction. -/
theorem roundTo_sub_le (x : ℚ) :
    roundTo x 8 - x ≤ 1 / (2 * 10 ^ 8) ∧
    -(1 / (2 * 10 ^ 8)) ≤ roundTo x 8 - x := by
  simp only [roundTo]
  have h1 : (⌊x * 10 ^ 8 + 1 / 2⌋ : ℚ) ≤ x * 10 ^ 8 + 1 / 2 :=
    Int.floor_le _
  have h2 : x * 10 ^ 8 + 1 / 2 - 1 < (⌊x * 10 ^ 8 + 1 / 2⌋ : ℚ) :=
    Int.sub_one_lt_floor _
  constructor <;> [linarith; linarith]

/-- `createAccumulator` routes the trade size to exactly one side. -/
theorem createAccumulator_sum (bucketStart bucketEnd : ℕ)
    (trade : KucoinTrade) :
    (createAccumulator bucketStart bucketEnd trade).volume =
      (createAccumulator bucketStart bucketEnd trade).buyVolume +
      (createAccumulator bucketStart bucketEnd trade).sellVolume := by
  cases h : trade.side <;> simp [createAccumulator, h]

/-- `mergeTrade` preserves the volume-split identity. -/
theorem mergeTrade_sum (a : MutableBarAccumulator) (trade : KucoinTrade)
    (h : a.volume = a.buyVolume + a.sellVolume) :
    (mergeTrade a trade).volume =
      (mergeTrade a trade).buyVolume + (mergeTrade a trade).sellVolume := by
  cases h2 : trade.side <;> simp [mergeTrade, h2, h] <;> ring

/-- Every bar cut by `runsFrom` from a sum-consistent accumulator is the
per-field rounding of an exact volume split, with at least one trade. -/
theorem runsFrom_volume (i : ℕ) :
    ∀ (rest : List KucoinTrade) (a : MutableBarAccumulator),
      a.volume = a.buyVolume + a.sellVolume → 1 ≤ a.tradeCount →
      ∀ bar ∈ runsFrom i a rest,
        (∃ v b s : ℚ, v = b + s ∧ bar.volume = roundTo v 8 ∧
          bar.buyVolume = roundTo b 8 ∧ bar.sellVolume = roundTo s 8) ∧
        1 ≤ bar.tradeCount := by
  intro rest
  induction rest with
  | nil =>
    intro a hsum hcnt bar hbar
    rw [runsFrom, List.mem_singleton] at hbar
    subst hbar
    exact ⟨⟨a.volume, a.buyVolume, a.sellVolume, hsum, rfl, rfl, rfl⟩, hcnt⟩
  | cons t rest ih =>
    intro a hsum hcnt bar hbar
    rw [runsFrom] at hbar
    split at hbar
    · exact ih (mergeTrade a t) (mergeTrade_sum a t hsum)
        (by simp [mergeTrade]) bar hbar
    · rw [List.mem_cons] at hbar
      rcases hbar with rfl | hbar
      · exact ⟨⟨a.volume, a.buyVolume, a.sellVolume, hsum, rfl, rfl, rfl⟩,
          hcnt⟩
      · exact ih _ (createAccumulator_sum _ _ t) le_rfl bar hbar

/-- C10 (amended): every bar the aggregator returns (with or without
truncation) has volume fields that are the 8-decimal roundings of an exact
split `v = b + s` accumulated by routing each trade's size to exactly one
side, so the identity `volume = buyVolume + sellVolume` holds before
rounding and up to `1.5e-8` after it; `tradeCount ≥ 1` always holds. -/
theorem spec_c10 (trades : List KucoinTrade) (intervalMs : ℕ)
    (maxBars : Option ℕ) (bar : TradeBar ℚ) (h1 : 0 < intervalMs)
    (hbar : bar ∈ buildBarsFromTrades trades intervalMs maxBars) :
    (∃ v b s : ℚ, v = b + s ∧ bar.volume = roundTo v 8 ∧
      bar.buyVolume = roundTo b 8 ∧ bar.sellVolume = roundTo s 8)
    ∧ bar.volume - (bar.buyVolume + bar.sellVolume) ≤ 3 / (2 * 10 ^ 8)
    ∧ -(3 / (2 * 10 ^ 8)) ≤ bar.volume - (bar.buyVolume + bar.sellVolume)
    ∧ 1 ≤ bar.tradeCount := by
  have hmem : bar ∈ buildBarsFromTrades trades intervalMs none := by
    cases maxBars with
    | none => exact hbar
    | some m =>
      rw [buildBarsFromTrades_maxBars] at hbar
      split at hbar
      · exact List.mem_of_mem_drop hbar
      · exact hbar
  cases hsort : sortByTime trades with
  | nil =>
    rw [buildBarsFromTrades, hsort] at hmem
    simp at hmem
  | cons f rest =>
    rw [buildBarsFromTrades_eq_runsFrom trades intervalMs h1 f rest hsort]
      at hmem
    obtain ⟨⟨v, b, s, hv, hV, hB, hS⟩, hcnt⟩ := runsFrom_volume intervalMs
      rest _ (createAccumulator_sum _ _ f) le_rfl bar hmem
    have r1 := roundTo_sub_le v
    have r2 := roundTo_sub_le b
    have r3 := roundTo_sub_le s
    refine ⟨⟨v, b, s, hv, hV, hB, hS⟩, ?_, ?_, hcnt⟩
    · rw [hV, hB, hS]
      have hv' : v = b + s := hv
      linarith [r1.1, r1.2, r2.1, r2.2, r3.1, r3.2]
    · rw [hV, hB, hS]
      have hv' : v = b + s := hv
      linarith [r1.1, r1.2, r2.1, r2.2, r3.1, r3.2]

/-- C10 witness: the single bar aggregated from one buy trade. -/
theorem spec_c10_witness :
    (0 < 60000) ∧
    ((buildBarsFromTrades [tradeA] 60000 none).getD 0 emptyBarQ ∈
      buildBarsFromTrades [tradeA] 60000 none) ∧
    ((∃ v b s : ℚ, v = b + s ∧
      ((buildBarsFromTrades [tradeA] 60000 none).getD 0 emptyBarQ).volume =
        roundTo v 8 ∧
      ((buildBarsFromTrades [tradeA] 60000 none).getD 0 emptyBarQ).buyVolume =
        roundTo b 8 ∧
      ((buildBarsFromTrades [tradeA] 60000 none).getD 0 emptyBarQ).sellVolume =
        roundTo s 8)
    ∧ ((buildBarsFromTrades [tradeA] 60000 none).getD 0 emptyBarQ).volume -
        (((buildBarsFromTrades [tradeA] 60000 none).getD 0
          emptyBarQ).buyVolume +
         ((buildBarsFromTrades [tradeA] 60000 none).getD 0
          emptyBarQ).sellVolume) ≤ 3 / (2 * 10 ^ 8)
    ∧ -(3 / (2 * 10 ^ 8)) ≤
        ((buildBarsFromTrades [tradeA] 60000 none).getD 0 emptyBarQ).volume -
        (((buildBarsFromTrades [tradeA] 60000 none).getD 0
          emptyBarQ).buyVolume +
         ((buildBarsFromTrades [tradeA] 60000 none).getD 0
          emptyBarQ).sellVolume)
    ∧ 1 ≤ ((buildBarsFromTrades [tradeA] 60000 none).getD 0
        emptyBarQ).tradeCount) := by
  have hmem : (buildBarsFromTrades [tradeA] 60000 none).getD 0 emptyBarQ ∈
      buildBarsFromTrades [tradeA] 60000 none := by
    rw [buildBarsFromTrades_eq_runsFrom [tradeA] 60000 (by norm_num)
      tradeA [] rfl]
    exact List.mem_singleton.mpr rfl
  exact ⟨by norm_num, hmem,
    spec_c10 [tradeA] 60000 none _ (by norm_num) hmem⟩

/-- C10 counterexample: two trades of size `4e-9` (one per side) produce a
bar with `volume = 1e-8` but `buyVolume = sellVolume = 0` after per-field
rounding, so the exact identity fails on the finalized fields. -/
theorem spec_c10_counterexample :
    (buildBarsFromTrades [tradeC, tradeD] 60000 none).map
      (fun bar => (bar.volume, bar.buyVolume, bar.sellVolume)) =
      [((1 : ℚ) / 10 ^ 8, 0, 0)] ∧
    ((1 : ℚ) / 10 ^ 8 ≠ 0 + 0) := by
  refine ⟨?_, by norm_num⟩
  rw [buildBarsFromTrades_eq_runsFrom [tradeC, tradeD] 60000 (by norm_num)
    tradeC [tradeD] rfl]
  rw [runsFrom, if_pos (by decide), runsFrom]
  have hf1 : (⌊((1 : ℚ) / 250000000 + 1 / 250000000) * 10 ^ 8 + 1 / 2⌋ : ℤ)
      = 1 := by
    rw [Int.floor_eq_iff]
    constructor <;> norm_num
  have hf0 : (⌊((1 : ℚ) / 250000000) * 10 ^ 8 + 1 / 2⌋ : ℤ) = 0 := by
    rw [Int.floor_eq_iff]
    constructor <;> norm_num
  have hss : (Side.sell = Side.buy) = False := eq_false (by decide)
  have hbs : (Side.buy = Side.sell) = False := eq_false (by decide)
  simp only [List.map_cons, List.map_nil, finalizeAccumulator, mergeTrade,
    createAccumulator, tradeC, tradeD, roundTo, hss, hbs, if_false, if_true]
  norm_num [hf1, hf0, hss, hbs]

/-- When every remaining trade stays inside the open bucket, `runsFrom`
produces the single bar of the fully merged accumulator. -/
theorem runsFrom_single (i : ℕ) :
    ∀ (rest : List KucoinTrade) (a : MutableBarAccumulator),
      (∀ u ∈ rest, u.time < a.startTime + i) →
      runsFrom i a rest = [finalizeAccumulator (rest.foldl mergeTrade a)] := by
  intro rest
  induction rest with
  | nil => intro a _; rfl
  | cons t rest ih =>
    intro a h
    rw [runsFrom, if_pos (h t (List.mem_cons_self t rest)), List.foldl_cons]
    exact ih (mergeTrade a t) fun u hu => h u (List.mem_cons_of_mem t hu)

/-- Merging trades never changes the open price. -/
theorem foldl_merge_open (ts : List KucoinTrade) (a : MutableBarAccumulator) :
    (ts.foldl mergeTrade a).open_ = a.open_ := by
  induction ts generalizing a with
  | nil => rfl
  | cons t rest ih =>
    rw [List.foldl_cons, ih (mergeTrade a t)]
    rfl

/-- The close after merging is the last merged trade's price. -/
theorem foldl_merge_close (ts : List KucoinTrade) (a : MutableBarAccumulator) :
    (ts.foldl mergeTrade a).close =
      ((ts.getLast?).map fun u => u.price).getD a.close := by
  induction ts generalizing a with
  | nil => rfl
  | cons t rest ih =>
    rw [List.foldl_cons, ih (mergeTrade a t)]
    cases rest with
    | nil => rfl
    | cons u us =>
      rw [List.getLast?_cons_cons]
      cases hw : (u :: us).getLast? with
      | none => simp at hw
      | some w => rfl

/-- The volume after merging is the seed volume plus all merged sizes. -/
theorem foldl_merge_volume (ts : List KucoinTrade) (a : MutableBarAccumulator) :
    (ts.foldl mergeTrade a).volume = a.volume + (ts.map fun u => u.size).sum := by
  induction ts generalizing a with
  | nil => simp
  | cons t rest ih =>
    rw [List.foldl_cons, ih (mergeTrade a t), List.map_cons, List.sum_cons]
    show a.volume + t.size + _ = _
    ring

/-- The notional after merging is the seed notional plus all merged
price-times-size terms. -/
theorem foldl_merge_notional (ts : List KucoinTrade)
    (a : MutableBarAccumulator) :
    (ts.foldl mergeTrade a).notional =
      a.notional + (ts.map fun u => u.price * u.size).sum := by
  induction ts generalizing a with
  | nil => simp
  | cons t rest ih =>
    rw [List.foldl_cons, ih (mergeTrade a t), List.map_cons, List.sum_cons]
    show a.notional + t.price * t.size + _ = _
    ring

/-- The high after merging dominates the seed high and all merged prices,
and is one of them. -/
theorem foldl_merge_high (ts : List KucoinTrade) (a : MutableBarAccumulator) :
    a.high ≤ (ts.foldl mergeTrade a).high ∧
    (∀ u ∈ ts, u.price ≤ (ts.foldl mergeTrade a).high) ∧
    ((ts.foldl mergeTrade a).high = a.high ∨
      (ts.foldl mergeTrade a).high ∈ ts.map fun u => u.price) := by
  induction ts generalizing a with
  | nil => simp
  | cons t rest ih =>
    rw [List.foldl_cons]
    obtain ⟨ih1, ih2, ih3⟩ := ih (mergeTrade a t)
    have hm : a.high ≤ (mergeTrade a t).high := le_max_left _ _
    refine ⟨le_trans hm ih1, ?_, ?_⟩
    · intro u hu
      rcases List.mem_cons.mp hu with rfl | hu'
      · exact le_trans (le_max_right a.high u.price) ih1
      · exact ih2 u hu'
    · rcases ih3 with h | h
      · rcases max_choice a.high t.price with hc | hc
        · exact Or.inl (by rw [h]; exact hc)
        · refine Or.inr ?_
          rw [List.map_cons, h]
          exact hc ▸ List.mem_cons_self _ _
      · exact Or.inr (List.map_cons _ _ _ ▸ List.mem_cons_of_mem _ h)

/-- The low after merging is dominated by the seed low and all merged
prices, and is one of them. -/
theorem foldl_merge_low (ts : List KucoinTrade) (a : MutableBarAccumulator) :
    (ts.foldl mergeTrade a).low ≤ a.low ∧
    (∀ u ∈ ts, (ts.foldl mergeTrade a).low ≤ u.price) ∧
    ((ts.foldl mergeTrade a).low = a.low ∨
      (ts.foldl mergeTrade a).low ∈ ts.map fun u => u.price) := by
  induction ts generalizing a with
  | nil => simp
  | cons t rest ih =>
    rw [List.foldl_cons]
    obtain ⟨ih1, ih2, ih3⟩ := ih (mergeTrade a t)
    have hm : (mergeTrade a t).low ≤ a.low := min_le_left _ _
    refine ⟨le_trans ih1 hm, ?_, ?_⟩
    · intro u hu
      rcases List.mem_cons.mp hu with rfl | hu'
      · exact le_trans ih1 (min_le_right a.low u.price)
      · exact ih2 u hu'
    · rcases ih3 with h | h
      · rcases min_choice a.low t.price with hc | hc
        · exact Or.inl (by rw [h]; exact hc)
        · refine Or.inr ?_
          rw [List.map_cons, h]
          exact hc ▸ List.mem_cons_self _ _
      · exact Or.inr (List.map_cons _ _ _ ▸ List.mem_cons_of_mem _ h)

/-- C2: for a trade list confined to a single time bucket, the aggregator
sorts stably by timestamp and emits exactly one bar whose open is the first
sorted trade's price, whose close is the last sorted trade's price, whose
high and low are the maximum and minimum trade price, and whose vwap is
`roundTo (Σ price·size / Σ size) 8` (with the `1e-12` fallback denominator
when the total size is zero) — i.e. the quotient of the claim, but rounded
to 8 decimals. -/
theorem spec_c2 (trades : List KucoinTrade) (intervalMs : ℕ)
    (u0 : KucoinTrade) (τ : ℕ) (h1 : 0 < intervalMs) (h2 : trades ≠ [])
    (h3 : ∀ u ∈ trades, ∀ v ∈ trades,
      floorToInterval u.time intervalMs = floorToInterval v.time intervalMs)
    (hu0 : u0 ∈ trades) :
    ((sortByTime trades).Pairwise fun a b => a.time ≤ b.time) ∧
    (sortByTime trades).filter (fun u => u.time = τ) =
      trades.filter (fun u => u.time = τ) ∧
    (buildBarsFromTrades trades intervalMs none).length = 1 ∧
    ((sortByTime trades).head?).map (fun u => u.price) =
      some ((buildBarsFromTrades trades intervalMs none).getD 0
        emptyBarQ).open_ ∧
    ((sortByTime trades).getLast?).map (fun u => u.price) =
      some ((buildBarsFromTrades trades intervalMs none).getD 0
        emptyBarQ).close ∧
    ((buildBarsFromTrades trades intervalMs none).getD 0 emptyBarQ).high ∈
      trades.map (fun u => u.price) ∧
    u0.price ≤
      ((buildBarsFromTrades trades intervalMs none).getD 0 emptyBarQ).high ∧
    ((buildBarsFromTrades trades intervalMs none).getD 0 emptyBarQ).low ∈
      trades.map (fun u => u.price) ∧
    ((buildBarsFromTrades trades intervalMs none).getD 0 emptyBarQ).low ≤
      u0.price ∧
    ((buildBarsFromTrades trades intervalMs none).getD 0 emptyBarQ).vwap =
      roundTo ((trades.map fun u => u.price * u.size).sum /
        (if (trades.map fun u => u.size).sum = 0 then (1 : ℚ) / 10 ^ 12
         else (trades.map fun u => u.size).sum)) 8 := by
  cases hsort : sortByTime trades with
  | nil =>
    have hp := sortByTime_perm trades
    rw [hsort] at hp
    exact absurd hp.nil_eq.symm h2
  | cons f rest =>
    have hf : f ∈ trades := (sortByTime_perm trades).mem_iff.mp
      (by rw [hsort]; exact List.mem_cons_self f rest)
    have hrest : ∀ u ∈ rest, u ∈ trades := fun u hu =>
      (sortByTime_perm trades).mem_iff.mp
        (by rw [hsort]; exact List.mem_cons_of_mem f hu)
    set a0 : MutableBarAccumulator := createAccumulator
      (floorToInterval f.time intervalMs)
      (floorToInterval f.time intervalMs + intervalMs) f with ha0
    have hin : ∀ u ∈ rest, u.time < a0.startTime + intervalMs := by
      intro u hu
      have he := h3 u (hrest u hu) f hf
      have hlt := lt_floorToInterval_add u.time intervalMs h1
      have hst : a0.startTime = floorToInterval f.time intervalMs := by
        rw [ha0]
        rfl
      omega
    have hbars : buildBarsFromTrades trades intervalMs none =
        [finalizeAccumulator (List.foldl mergeTrade a0 rest)] := by
      rw [buildBarsFromTrades_eq_runsFrom trades intervalMs h1 f rest hsort,
        ← ha0, runsFrom_single intervalMs rest a0 hin]
    have hbar : (buildBarsFromTrades trades intervalMs none).getD 0
        emptyBarQ = finalizeAccumulator (List.foldl mergeTrade a0 rest) := by
      rw [hbars]
      rfl
    obtain ⟨hh1, hh2, hh3⟩ := foldl_merge_high rest a0
    obtain ⟨hl1, hl2, hl3⟩ := foldl_merge_low rest a0
    have ha0high : a0.high = f.price := by rw [ha0]; rfl
    have ha0low : a0.low = f.price := by rw [ha0]; rfl
    refine ⟨?_, ?_, ?_, ?_, ?_, ?_, ?_, ?_, ?_, ?_⟩
    · rw [← hsort]
      exact sortByTime_pairwise trades
    · rw [← hsort]
      exact sortByTime_filter trades τ
    · rw [hbars]
      rfl
    · rw [hbar]
      show some f.price = some (List.foldl mergeTrade a0 rest).open_
      rw [foldl_merge_open, ha0]
      rfl
    · rw [hbar]
      cases rest with
      | nil =>
        rw [ha0]
        rfl
      | cons u us =>
        rw [List.getLast?_cons_cons]
        have hc := foldl_merge_close (u :: us) a0
        cases hw : (u :: us).getLast? with
        | none => simp at hw
        | some w =>
          rw [hw] at hc
          show some w.price = some (List.foldl mergeTrade a0 (u :: us)).close
          rw [hc]
          rfl
    · rw [hbar]
      show (List.foldl mergeTrade a0 rest).high ∈
        List.map (fun u => u.price) trades
      rcases hh3 with h | h
      · rw [h, ha0high]
        exact List.mem_map.mpr ⟨f, hf, rfl⟩
      · obtain ⟨u, hu, hux⟩ := List.mem_map.mp h
        exact List.mem_map.mpr ⟨u, hrest u hu, hux⟩
    · rw [hbar]
      show u0.price ≤ (List.foldl mergeTrade a0 rest).high
      have hu0s : u0 ∈ f :: rest := by
        rw [← hsort]
        exact (sortByTime_perm trades).mem_iff.mpr hu0
      rcases List.mem_cons.mp hu0s with rfl | hu'
      · exact le_of_eq_of_le ha0high.symm hh1
      · exact hh2 u0 hu'
    · rw [hbar]
      show (List.foldl mergeTrade a0 rest).low ∈
        List.map (fun u => u.price) trades
      rcases hl3 with h | h
      · rw [h, ha0low]
        exact List.mem_map.mpr ⟨f, hf, rfl⟩
      · obtain ⟨u, hu, hux⟩ := List.mem_map.mp h
        exact List.mem_map.mpr ⟨u, hrest u hu, hux⟩
    · rw [hbar]
      show (List.foldl mergeTrade a0 rest).low ≤ u0.price
      have hu0s : u0 ∈ f :: rest := by
        rw [← hsort]
        exact (sortByTime_perm trades).mem_iff.mpr hu0
      rcases List.mem_cons.mp hu0s with rfl | hu'
      · exact le_of_le_of_eq hl1 ha0low
      · exact hl2 u0 hu'
    · rw [hbar]
      have hps : ((sortByTime trades).map fun u => u.price * u.size).sum =
          (trades.map fun u => u.price * u.size).sum :=
        ((sortByTime_perm trades).map _).sum_eq
      have hvs : ((sortByTime trades).map fun u => u.size).sum =
          (trades.map fun u => u.size).sum :=
        ((sortByTime_perm trades).map _).sum_eq
      rw [hsort, List.map_cons, List.sum_cons] at hps hvs
      have hnot : (List.foldl mergeTrade a0 rest).notional =
          (trades.map fun u => u.price * u.size).sum := by
        rw [foldl_merge_notional, ha0]
        exact hps
      have hvol : (List.foldl mergeTrade a0 rest).volume =
          (trades.map fun u => u.size).sum := by
        rw [foldl_merge_volume, ha0]
        exact hvs
      show roundTo ((List.foldl mergeTrade a0 rest).notional /
          (if (List.foldl mergeTrade a0 rest).volume = 0 then
            (1 : ℚ) / 10 ^ 12
           else (List.foldl mergeTrade a0 rest).volume)) 8 = _
      rw [hnot, hvol]

/-- Witness for C2: the two-trade list `[tradeA, tradeB]` (prices 1 and 2,
sizes 1 and 2, times 0 and 1) lies in one 60000 ms bucket, and the claim
theorem applies to it at `u0 = tradeA`, `τ = 0`. -/
theorem spec_c2_witness :
    (0 < 60000) ∧ ([tradeA, tradeB] ≠ []) ∧
    (∀ u ∈ [tradeA, tradeB], ∀ v ∈ [tradeA, tradeB],
      floorToInterval u.time 60000 = floorToInterval v.time 60000) ∧
    tradeA ∈ [tradeA, tradeB] ∧
    (((sortByTime [tradeA, tradeB]).Pairwise fun a b => a.time ≤ b.time) ∧
    (sortByTime [tradeA, tradeB]).filter (fun u => u.time = 0) =
      [tradeA, tradeB].filter (fun u => u.time = 0) ∧
    (buildBarsFromTrades [tradeA, tradeB] 60000 none).length = 1 ∧
    ((sortByTime [tradeA, tradeB]).head?).map (fun u => u.price) =
      some ((buildBarsFromTrades [tradeA, tradeB] 60000 none).getD 0
        emptyBarQ).open_ ∧
    ((sortByTime [tradeA, tradeB]).getLast?).map (fun u => u.price) =
      some ((buildBarsFromTrades [tradeA, tradeB] 60000 none).getD 0
        emptyBarQ).close ∧
    ((buildBarsFromTrades [tradeA, tradeB] 60000 none).getD 0
        emptyBarQ).high ∈ [tradeA, tradeB].map (fun u => u.price) ∧
    tradeA.price ≤
      ((buildBarsFromTrades [tradeA, tradeB] 60000 none).getD 0
        emptyBarQ).high ∧
    ((buildBarsFromTrades [tradeA, tradeB] 60000 none).getD 0
        emptyBarQ).low ∈ [tradeA, tradeB].map (fun u => u.price) ∧
    ((buildBarsFromTrades [tradeA, tradeB] 60000 none).getD 0
        emptyBarQ).low ≤ tradeA.price ∧
    ((buildBarsFromTrades [tradeA, tradeB] 60000 none).getD 0
        emptyBarQ).vwap =
      roundTo (([tradeA, tradeB].map fun u => u.price * u.size).sum /
        (if ([tradeA, tradeB].map fun u => u.size).sum = 0 then
          (1 : ℚ) / 10 ^ 12
         else ([tradeA, tradeB].map fun u => u.size).sum)) 8) :=
  ⟨by decide, by simp, by decide, List.mem_cons_self _ _,
    spec_c2 [tradeA, tradeB] 60000 tradeA 0 (by decide) (by simp)
      (by decide) (List.mem_cons_self _ _)⟩

/-- Counterexample for C2 as frozen: on the single-bucket trade list
`[tradeA, tradeB]` the produced bar's vwap is the 8-decimal rounding
`1.66666667`, not the exact quotient `Σ price·size / Σ size = 5/3`. -/
theorem spec_c2_counterexample :
    (buildBarsFromTrades [tradeA, tradeB] 60000 none).map
      (fun bar => bar.vwap) = [(166666667 : ℚ) / 10 ^ 8] ∧
    ((166666667 : ℚ) / 10 ^ 8 ≠
      (([tradeA, tradeB].map fun u => u.price * u.size).sum /
       ([tradeA, tradeB].map fun u => u.size).sum)) := by
  constructor
  · rw [buildBarsFromTrades_eq_runsFrom [tradeA, tradeB] 60000 (by norm_num)
      tradeA [tradeB] rfl]
    rw [runsFrom, if_pos (by decide), runsFrom]
    rw [List.map_cons, List.map_nil]
    have h5 : (finalizeAccumulator (mergeTrade (createAccumulator
        (floorToInterval tradeA.time 60000)
        (floorToInterval tradeA.time 60000 + 60000) tradeA) tradeB)).vwap =
        roundTo ((5 : ℚ) / 3) 8 := by
      show roundTo ((1 * 1 + 2 * 2 : ℚ) /
        (if (1 + 2 : ℚ) = 0 then 1 / 10 ^ 12 else (1 + 2 : ℚ))) 8 =
        roundTo ((5 : ℚ) / 3) 8
      norm_num
    rw [h5]
    have hf : (⌊(5 : ℚ) / 3 * 10 ^ 8 + 1 / 2⌋ : ℤ) = 166666667 := by
      rw [Int.floor_eq_iff]
      constructor <;> norm_num
    simp only [roundTo]
    rw [hf]
    norm_num
  · simp only [List.map_cons, List.map_nil, List.sum_cons, List.sum_nil]
    show (166666667 : ℚ) / 10 ^ 8 ≠
      (tradeA.price * tradeA.size + (tradeB.price * tradeB.size + 0)) /
      (tradeA.size + (tradeB.size + 0))
    norm_num [tradeA, tradeB]
